import Mathlib

set_option maxHeartbeats 1000000

/-
Verification development for the rag-testcase-generator repository.

Python values are shallowly embedded:
* Python strings become `PyStr := List Char`;
* Python dicts become association lists (`alookup` is dict lookup);
* fallible Python code (code that can raise) returns `Option`;
* Python floats in task-progress arithmetic become `ℚ`.

Each definition carries a comment naming the source function it embeds.
-/

/-- Python strings, modelled as lists of characters. -/
abbrev PyStr := List Char

/-- Python truthiness of an optional string: `None` and `""` are falsy,
every other string is truthy. -/
def pyTruthy : Option PyStr → Bool
  | none => false
  | some s => !s.isEmpty

/-- Dict lookup on an association list (Python `d.get(k)` / `k in d`). -/
def alookup {α β : Type _} [DecidableEq α] (k : α) : List (α × β) → Option β
  | [] => none
  | (k', v) :: rest => if k = k' then some v else alookup k rest

-- ============================================================================
-- C6: api/task_manager.py — TaskManager.calculate_progress
-- ============================================================================

/-- Task type (api/models.py `TaskType`): single-hop or multi-hop. -/
inductive TaskType where
  | single_hop
  | multi_hop
deriving DecidableEq

/-- Stage bookkeeping (api/models.py `StageInfo`); only the fields that
`calculate_progress` and the pipeline runner touch are kept. -/
structure StageInfo where
  progress : ℚ
  items_processed : Nat := 0
  items_total : Nat := 0
  tokens_used : Nat := 0
deriving DecidableEq

/-- Task bookkeeping (api/models.py `TaskInfo`): the task type and the
per-stage dict, as an association list keyed by stage name. -/
structure TaskInfo where
  task_type : TaskType
  stages : List (PyStr × StageInfo)
deriving DecidableEq

/-- In-memory task store (api/task_manager.py `TaskManager.tasks`). -/
structure TaskManager where
  tasks : List (PyStr × TaskInfo)
deriving DecidableEq

/-- Embedding of `TaskManager.calculate_progress` (api/task_manager.py,
lines 177-198): 0.0 for a missing task or an empty stage dict, otherwise
the sum of the stage progress values divided by 8 for multi-hop tasks and
6 otherwise. -/
def calculate_progress (tm : TaskManager) (task_id : PyStr) : ℚ :=
  match alookup task_id tm.tasks with
  | none => 0
  | some task =>
    if task.stages.isEmpty then 0
    else
      let num_stages : ℚ := if task.task_type = TaskType.multi_hop then 8 else 6
      ((task.stages.map (fun s => s.2.progress)).sum) / num_stages

-- ============================================================================
-- C4: src/components/extract_questions.py — QuestionExtractor
-- ============================================================================

/-- Nested dict under the key "short-answer" of a corrected answer. -/
structure ShortAns where
  answer : Option PyStr
  reason : Option PyStr
deriving DecidableEq

/-- Dict under the key "corrected-answer" of a proposed-question block. -/
structure CorrectedAnswer where
  short : Option ShortAns
deriving DecidableEq

/-- One proposed-question block as consumed by `QuestionExtractor`. -/
structure QBlock where
  question : Option PyStr
  corrected : Option CorrectedAnswer
deriving DecidableEq

/-- One pipeline chunk as consumed by `QuestionExtractor.process_chunk`:
its "id" (absent modelled as `none`) and its "proposed-questions" dict
(a missing key behaves as the default `{}`, modelled as `[]`). -/
structure Chunk where
  id : Option PyStr
  proposed : List (PyStr × QBlock)
deriving DecidableEq

/-- One extracted question-answer record built by
`QuestionExtractor.process_chunk`. -/
structure ExtractedQ where
  context : Option PyStr
  question : PyStr
  short_answer : PyStr
  reason : PyStr
  origin : List PyStr
deriving DecidableEq

/-- Embedding of `re.compile(r"\[([^\]]+)\]").findall`: every non-empty
bracketed group, scanning left to right, non-overlapping.  The second
argument is the scanning state: `none` outside a candidate match, `some acc`
inside one with `acc` holding the (reversed) group read so far. -/
def citationFindall : PyStr → Option (List Char) → List PyStr
  | [], _ => []
  | c :: rest, none =>
    if c = '[' then citationFindall rest (some []) else citationFindall rest none
  | c :: rest, some acc =>
    if c = ']' then
      if acc.isEmpty then citationFindall rest none
      else acc.reverse :: citationFindall rest none
    else citationFindall rest (some (c :: acc))

/-- Embedding of `QuestionExtractor.extract_origins`
(src/components/extract_questions.py, lines 28-40). -/
def extract_origins (text : PyStr) : List PyStr :=
  if text.isEmpty then [] else citationFindall text none

/-- Default for a missing "corrected-answer" key (Python `{}`). -/
def emptyCorrected : CorrectedAnswer := ⟨none⟩

/-- Default for a missing "short-answer" key (Python `{}`). -/
def emptyShort : ShortAns := ⟨none, none⟩

/-- Embedding of `QuestionExtractor.process_chunk`
(src/components/extract_questions.py, lines 42-79): walks the
proposed-questions dict, skips blocks with a missing or empty question,
short answer or reason, and collects a record for the rest. -/
def process_chunk (chunk : Chunk) : List ExtractedQ :=
  chunk.proposed.foldl
    (fun results qitem =>
      let qblock := qitem.2
      let question := qblock.question
      let corrected := qblock.corrected.getD emptyCorrected
      let short := corrected.short.getD emptyShort
      let short_answer := short.answer
      let reason := short.reason
      if pyTruthy question && pyTruthy short_answer && pyTruthy reason then
        results ++
          [{ context := chunk.id
             question := question.getD []
             short_answer := short_answer.getD []
             reason := reason.getD []
             origin := extract_origins (short_answer.getD []) }]
      else results)
    []

/-- Embedding of `QuestionExtractor.run` in direct mode
(src/components/extract_questions.py, lines 81-124): extends the result
list chunk by chunk and returns it with its length. -/
def questionExtractorRun (inputs : List Chunk) : List ExtractedQ × Nat :=
  let extracted_questions := inputs.foldl (fun acc chunk => acc ++ process_chunk chunk) []
  (extracted_questions, extracted_questions.length)

/-- Spec-side accessor: the corrected short answer of a block, through the
defaulted "corrected-answer" / "short-answer" gets. -/
def shortAnswerOf (qb : QBlock) : Option PyStr :=
  ((qb.corrected.getD emptyCorrected).short.getD emptyShort).answer

/-- Spec-side accessor: the corrected short-answer reason of a block. -/
def reasonOf (qb : QBlock) : Option PyStr :=
  ((qb.corrected.getD emptyCorrected).short.getD emptyShort).reason

/-- Spec-side predicate from the claim: the question, corrected short
answer and reason fields are all present and non-empty. -/
def qblockValid (qb : QBlock) : Bool :=
  pyTruthy qb.question && pyTruthy (shortAnswerOf qb) && pyTruthy (reasonOf qb)

/-- Spec-side record for a valid block of a chunk: the chunk id as context,
the short answer, the reason, and all bracketed citations of the short
answer. -/
def specRecordOf (c : Chunk) (qb : QBlock) : ExtractedQ :=
  { context := c.id
    question := qb.question.getD []
    short_answer := (shortAnswerOf qb).getD []
    reason := (reasonOf qb).getD []
    origin := extract_origins ((shortAnswerOf qb).getD []) }

/-- Spec-side result list: for each chunk in order, the records of exactly
its valid proposed-question blocks. -/
def specExtracted (inputs : List Chunk) : List ExtractedQ :=
  inputs.flatMap (fun c => ((c.proposed.map Prod.snd).filter qblockValid).map (specRecordOf c))

/-- Concrete example task for the C6 witness. -/
def taskEx : TaskInfo :=
  ⟨TaskType.single_hop, [(['a'], ⟨1, 0, 0, 0⟩), (['b'], ⟨(1 : ℚ)/2, 0, 0, 0⟩)]⟩

/-- Concrete example task manager for the C6 witness. -/
def tmEx : TaskManager := ⟨[(['t'], taskEx)]⟩

-- ============================================================================
-- C10: src/routers/add_entity_id.py — AddEntityId.run
-- ============================================================================

/-- One extracted entity as consumed by `AddEntityId.run`; the three keys the
code reads or writes, each possibly absent. -/
structure Entity where
  entity_name : Option PyStr
  entity_description : Option PyStr
  entity_id : Option Nat
deriving DecidableEq

/-- One extracted relationship; `source_entity_name` and `target_entity_name`
are read unconditionally, the id fields are written by `AddEntityId.run`. -/
structure Relationship where
  source_entity_name : PyStr
  target_entity_name : PyStr
  relationship_description : PyStr
  source_entity_id : Option Nat
  target_entity_id : Option Nat
deriving DecidableEq

/-- One input document for `AddEntityId.run`: the "entity" key may be absent
(the document is then skipped), "relationship" is accessed unconditionally. -/
structure EntityDoc where
  entity : Option (List Entity)
  relationship : List Relationship
deriving DecidableEq

/-- Dict assignment `d[k] = v` on an association list. -/
def dictSet {α β : Type _} [DecidableEq α] (k : α) (v : β) : List (α × β) → List (α × β)
  | [] => [(k, v)]
  | (k', v') :: rest => if k = k' then (k, v) :: rest else (k', v') :: dictSet k v rest

/-- Filter condition of AddEntityId.run, lines 60-62: keep entities having
both "entity_name" and "entity_description". -/
def entityKept (e : Entity) : Bool :=
  e.entity_name.isSome && e.entity_description.isSome

/-- Embedding of the id-assignment loop of `AddEntityId.run` (lines 68-77):
walks the filtered entities, gives each entity without an "entity_id" the
next fresh id, and records name-to-id in `entity_name_to_id` (later
entities overwrite earlier ones with the same name).  Returns the updated
entities, the next fresh id, and the name map. -/
def assignEntityIds : List Entity → Nat → List (PyStr × Nat) → List Entity × Nat × List (PyStr × Nat)
  | [], beg, name2id => ([], beg, name2id)
  | e :: rest, beg, name2id =>
    let idVal := match e.entity_id with
      | some k => k
      | none => beg
    let e' := { e with entity_id := some idVal }
    let recRes := assignEntityIds rest (beg + 1) (dictSet (e.entity_name.getD []) idVal name2id)
    (e' :: recRes.1, recRes.2.1, recRes.2.2)

/-- Embedding of the per-document body of `AddEntityId.run` (lines 51-105):
skip documents without "entity"; filter entities, assign ids, keep only
relationships whose two entity names are in the map, and write their
source/target entity ids.  Returns the new document, the next fresh id and
whether the document counted as processed. -/
def processEntityDoc (beg : Nat) (doc : EntityDoc) : EntityDoc × Nat × Bool :=
  match doc.entity with
  | none => (doc, beg, false)
  | some entities =>
    let filtered_entities := entities.filter entityKept
    let assignRes := assignEntityIds filtered_entities beg []
    let name2id := assignRes.2.2
    let filter_relationships := doc.relationship.filter (fun r =>
      (alookup r.source_entity_name name2id).isSome &&
      (alookup r.target_entity_name name2id).isSome)
    let newRels := filter_relationships.map (fun r =>
      { r with
        source_entity_id := alookup r.source_entity_name name2id
        target_entity_id := alookup r.target_entity_name name2id })
    ({ doc with entity := some assignRes.1, relationship := newRels }, assignRes.2.1, true)

/-- Embedding of the document loop of `AddEntityId.run`, threading the
global `entity_id_beg` counter and `processed_count`. -/
def addEntityIdRunAux : List EntityDoc → Nat → Nat → List EntityDoc × Nat × Nat
  | [], beg, cnt => ([], cnt, beg)
  | d :: rest, beg, cnt =>
    let res := processEntityDoc beg d
    let recRes := addEntityIdRunAux rest res.2.1 (if res.2.2 then cnt + 1 else cnt)
    (res.1 :: recRes.1, recRes.2.1, recRes.2.2)

/-- Embedding of `AddEntityId.run` in direct mode (lines 33-119); the
Python code deep-copies its argument (line 44) and then mutates only the
copy, so the run is a pure function of the input value.  Returns
(documents, processed_count, entity_id_beg). -/
def addEntityIdRun (inputs : List EntityDoc) : List EntityDoc × Nat × Nat :=
  addEntityIdRunAux inputs 0 0

/-- Spec-side: the entity id recorded for a name by the assignment loop,
when the i-th entity without a pre-existing id receives id `beg + i` and a
later entity with the same name overwrites an earlier one. -/
def recordedId : List Entity → Nat → PyStr → Option Nat
  | [], _, _ => none
  | e :: rest, beg, nm =>
    let idVal := match e.entity_id with
      | some k => k
      | none => beg
    match recordedId rest (beg + 1) nm with
    | some v => some v
    | none => if e.entity_name = some nm then some idVal else none

/-- Spec-side: whether some entity of the list carries the given name. -/
def nameAmong (es : List Entity) (nm : PyStr) : Bool :=
  es.any (fun e => e.entity_name = some nm)

/-- Spec-side transform of a document's relationships: keep exactly those
whose source and target names are among the filtered entities, and set
their ids to the recorded ids. -/
def specRels (filtered : List Entity) (beg : Nat) (rels : List Relationship) : List Relationship :=
  (rels.filter (fun r =>
      nameAmong filtered r.source_entity_name && nameAmong filtered r.target_entity_name)).map
    (fun r => { r with
      source_entity_id := recordedId filtered beg r.source_entity_name
      target_entity_id := recordedId filtered beg r.target_entity_name })

/-- Concrete entity list for the C10 witness. -/
def entListEx : List Entity :=
  [⟨some ['A'], some ['d'], none⟩, ⟨some ['B'], none, none⟩]

/-- Concrete document for the C10 witness: one keepable entity, one
relationship inside the filtered set and one naming an entity outside it. -/
def docEx : EntityDoc :=
  ⟨some entListEx,
   [⟨['A'], ['A'], ['r'], none, none⟩, ⟨['A'], ['B'], ['s'], none, none⟩]⟩

-- ============================================================================
-- C1: api/pipeline_runner.py — run_pipeline_with_tracking
-- ============================================================================

/-- Oracles for the six single-hop stages.  The stages call an external
LLM API, so their behaviour is a parameter; the tuple shapes are those of
the Python return values.  `Data` is the pipeline's chunk-list payload,
`Extracted` the question-extractor output. -/
structure PipelineStages (Data Extracted : Type _) where
  /-- Preprocessor.run saves its chunk list to
  PREPROCESSOR_CHUNKED_OUTPUT_PATH (src/routers/preprocessor.py, line 145)
  and returns only token statistics
  (prompt_tokens, completion_tokens, success_num, all_num). -/
  preprocessorChunks : Data
  preprocessorStats : Nat × Nat × Nat × Nat
  /-- FactExtractor.run, direct mode:
  (data, prompt_tokens, completion_tokens, facts, success_rate). -/
  fact_extractor : Data → Data × Nat × Nat × Nat × ℚ
  /-- ProposeGenerator.run, direct mode:
  (data, prompt_tokens, completion_tokens, success, all, questions). -/
  propose_generator : Data → Data × Nat × Nat × Nat × Nat × Nat
  /-- FinalAnswerGenerator.run, direct mode:
  (data, prompt_tokens, completion_tokens, success, all). -/
  final_answer_generator : Data → Data × Nat × Nat × Nat × Nat
  /-- AnswerEvaluator.run, direct mode:
  (data, new_gen, all, prompt_tokens, completion_tokens). -/
  answer_evaluator : Data → Data × Nat × Nat × Nat × Nat
  /-- QuestionExtractor.run, direct mode: (extracted, total). -/
  question_extractor : Data → Extracted × Nat

/-- One executed stage in the pipeline trace: the stage name, the pipeline
data it consumed (`none` for the preprocessor, which takes no pipeline
data) and the pipeline data it produced (`none` for the question
extractor, whose output is the extracted-question list). -/
structure StageExec (Data : Type _) where
  name : PyStr
  dataIn : Option Data
  dataOut : Option Data

/-- Final result stored by the pipeline runner (the fields of the `result`
dict of api/pipeline_runner.py, lines 262-273, that do not require
inspecting the abstract payload). -/
structure PipelineResult (Data Extracted : Type _) where
  data : Data
  extracted_questions : Extracted
  total_facts : Nat
  total_questions_generated : Nat
  total_valid_questions_extracted : Nat
  total_prompt_tokens : Nat
  total_completion_tokens : Nat

/-- Embedding of `run_pipeline_with_tracking` (api/pipeline_runner.py,
lines 57-293).  `cancel k` is the value `task_manager.is_cancelled` returns
at the k-th of the six checkpoints (one before each stage); a cancelled
pipeline stops and stores no result.  `initialStore` is the previous
content of the preprocessor's chunked-output file: stage 1 overwrites it
and stage 2 loads the file back (lines 98-100).  Returns the stored
result (`none` when cancelled) and the trace of executed stages. -/
def run_pipeline_with_tracking {Data Extracted : Type _}
    (st : PipelineStages Data Extracted) (initialStore : Option Data)
    (cancel : Nat → Bool) :
    Option (PipelineResult Data Extracted) × List (StageExec Data) :=
  if cancel 0 then (none, []) else
  -- Stage 1: Preprocessor.run; its chunk output overwrites the file slot.
  let store : Option Data := some st.preprocessorChunks
  match store with
  | none => (none, [])
  | some data1 =>
  let e1 : StageExec Data := ⟨"preprocessor".data, none, some data1⟩
  if cancel 1 then (none, [e1]) else
  -- Stage 2: FactExtractor.run(inputs=data)
  let r2 := st.fact_extractor data1
  let data2 := r2.1
  let e2 : StageExec Data := ⟨"fact_extractor".data, some data1, some data2⟩
  if cancel 2 then (none, [e1, e2]) else
  -- Stage 3: ProposeGenerator.run(inputs=data)
  let r3 := st.propose_generator data2
  let data3 := r3.1
  let e3 : StageExec Data := ⟨"propose_generator".data, some data2, some data3⟩
  if cancel 3 then (none, [e1, e2, e3]) else
  -- Stage 4: FinalAnswerGenerator.run(inputs=data)
  let r4 := st.final_answer_generator data3
  let data4 := r4.1
  let e4 : StageExec Data := ⟨"final_answer_generator".data, some data3, some data4⟩
  if cancel 4 then (none, [e1, e2, e3, e4]) else
  -- Stage 5: AnswerEvaluator.run(inputs=data)
  let r5 := st.answer_evaluator data4
  let data5 := r5.1
  let e5 : StageExec Data := ⟨"answer_evaluator".data, some data4, some data5⟩
  if cancel 5 then (none, [e1, e2, e3, e4, e5]) else
  -- Stage 6: QuestionExtractor.run(inputs=data)
  let r6 := st.question_extractor data5
  let e6 : StageExec Data := ⟨"question_extractor".data, some data5, none⟩
  (some
    { data := data5
      extracted_questions := r6.1
      total_facts := r2.2.2.2.1
      total_questions_generated := r3.2.2.2.2.2
      total_valid_questions_extracted := r6.2
      total_prompt_tokens :=
        st.preprocessorStats.1 + r2.2.1 + r3.2.1 + r4.2.1 + r5.2.2.2.1
      total_completion_tokens :=
        st.preprocessorStats.2.1 + r2.2.2.1 + r3.2.2.1 + r4.2.2.1 + r5.2.2.2.2 },
   [e1, e2, e3, e4, e5, e6])

-- ============================================================================
-- C3 / C7: src/components/propose_generator.py — ProposeGenerator.run
-- ============================================================================

/-- One propose-generator input item in content mode: the value under the
"proposed-questions" key when present, and the rest of the dict,
abstract. -/
structure PGItem (PQ ρ : Type _) where
  pq : Option PQ
  rest : ρ
deriving DecidableEq

/-- Embedding of the submission loop of `ProposeGenerator.run` in content
mode (lines 146-153): among the first MAX_GEN_TIMES items, exactly those
without the "proposed-questions" key are submitted to the pool, as
(index, item) pairs. -/
def proposeSubmitted {PQ ρ : Type _} (maxGen : Nat) (inputs : List (PGItem PQ ρ)) :
    List (Nat × PGItem PQ ρ) :=
  ((inputs.take maxGen).enum).filter (fun t => t.2.pq.isNone)

/-- Embedding of the completion loop of `ProposeGenerator.run` in content
mode (lines 156-171): each future that completed successfully replaces the
item at its index (`inputs[i] = result`); a failed one changes nothing.
`outcome i item` is what `process_input_content` produced for that item
(`none` models the exception path). -/
def proposeApplyResults {PQ ρ : Type _}
    (outcome : Nat → PGItem PQ ρ → Option (PGItem PQ ρ × Nat)) :
    List (Nat × PGItem PQ ρ) → List (PGItem PQ ρ) → List (PGItem PQ ρ)
  | [], inputs => inputs
  | (i, item) :: rest, inputs =>
    match outcome i item with
    | some result => proposeApplyResults outcome rest (inputs.set i result.1)
    | none => proposeApplyResults outcome rest inputs

/-- Embedding of the submission loop of `ProposeGenerator.run` in
entity-graph mode (lines 216-231 and 229-246): entity ids already present
in the previously saved outputs are skipped; `viable` models the
relationship-prompt filter of lines 234-241 (it depends on the graph and
on `random.sample`, so it is an oracle). -/
def entitySubmitted {E : Type _} (maxGen : Nat) (alreadyDone : List Nat)
    (graphItems : List (Nat × E)) (viable : Nat → E → Bool) : List (Nat × E) :=
  (graphItems.take maxGen).filter
    (fun t => !(alreadyDone.contains t.1) && viable t.1 t.2)

/-- Embedding of the completion loop of `ProposeGenerator.run` in
entity-graph mode (lines 249-293): each successful future stores its
output under its entity id (`outputs[cur_entity_id] = ...`); a failed one
stores nothing. -/
def entityApplyResults {E V : Type _} (outcome : Nat → E → Option V) :
    List (Nat × E) → List (Nat × V) → List (Nat × V)
  | [], outputs => outputs
  | (eid, item) :: rest, outputs =>
    match outcome eid item with
    | some v => entityApplyResults outcome rest (dictSet eid v outputs)
    | none => entityApplyResults outcome rest outputs

/-- Result of one completed content-mode API call, as reported by
`process_input_content`: prompt tokens, completion tokens and the number
of proposed questions. -/
structure CallResult where
  prompt_tokens : Nat
  completion_tokens : Nat
  questions : Nat
deriving DecidableEq

/-- The shared counters of `ProposeGenerator` guarded by `token_lock`
(lines 48-54). -/
structure Counters where
  total_prompt_tokens : Nat
  total_completion_tokens : Nat
  total_questions_generated : Nat
deriving DecidableEq

/-- Accumulation of one completed call into the shared counters.  Every
update of these counters in the source is performed under `token_lock`
(lines 91-93 and 163-164), so it is modelled as one atomic step. -/
def applyCall (c : Counters) (r : CallResult) : Counters :=
  { total_prompt_tokens := c.total_prompt_tokens + r.prompt_tokens
    total_completion_tokens := c.total_completion_tokens + r.completion_tokens
    total_questions_generated := c.total_questions_generated + r.questions }

/-- A schedule of n calls on a pool of W workers
(`ThreadPoolExecutor(max_workers=NUM_WORKERS)`, line 144): call i runs on
worker `worker i` during the closed interval [start i, finish i], and one
worker never runs two calls at overlapping times. -/
structure PoolSchedule (n W : Nat) where
  start : Fin n → Nat
  finish : Fin n → Nat
  worker : Fin n → Fin W
  start_le_finish : ∀ i, start i ≤ finish i
  exclusive : ∀ i j, i ≠ j → worker i = worker j →
    finish i < start j ∨ finish j < start i

/-- The set of calls in flight at time t under a schedule. -/
def runningAt {n W : Nat} (sc : PoolSchedule n W) (t : Nat) : Finset (Fin n) :=
  Finset.univ.filter (fun i => sc.start i ≤ t ∧ t ≤ sc.finish i)

/-- Example stage oracles over `Data := Nat` for the C1 witness. -/
def stEx : PipelineStages Nat Nat where
  preprocessorChunks := 0
  preprocessorStats := (0, 0, 3, 3)
  fact_extractor := fun d => (d + 1, 0, 0, 0, 0)
  propose_generator := fun d => (d + 1, 0, 0, 0, 0, 0)
  final_answer_generator := fun d => (d + 1, 0, 0, 0, 0)
  answer_evaluator := fun d => (d + 1, 0, 0, 0, 0)
  question_extractor := fun d => (d + 3, 2)

/-- Example pool schedule for the C7 witness: two calls on one worker,
run one after the other. -/
def scEx : PoolSchedule 2 1 where
  start := fun i => if i = 0 then 0 else 2
  finish := fun i => if i = 0 then 1 else 3
  worker := fun _ => 0
  start_le_finish := by decide
  exclusive := by decide

/-- Example call results for the C7 witness. -/
def resultsEx : Fin 2 → CallResult := fun i => if i = 0 then ⟨1, 2, 3⟩ else ⟨10, 20, 30⟩

/-- Example content-mode inputs for the C3 witness: the first item already
carries "proposed-questions", the second does not. -/
def inputsEx : List (PGItem Nat Nat) := [⟨some 1, 0⟩, ⟨none, 0⟩]

/-- Example completion order for the C3 witness. -/
def orderEx : List (Nat × PGItem Nat Nat) := [(1, ⟨none, 0⟩)]

/-- Example per-item outcome for the C3 witness. -/
def outcomeEx : Nat → PGItem Nat Nat → Option (PGItem Nat Nat × Nat) :=
  fun _ item => some (⟨some 9, item.rest⟩, 1)

/-- Example previously saved outputs (entity id 5 already done) for the
C3 witness. -/
def outputsEx : List (Nat × Nat) := [(5, 42)]

/-- Example entity-graph items for the C3 witness. -/
def graphItemsEx : List (Nat × Nat) := [(5, 0), (6, 0)]

/-- Example entity-graph completion order for the C3 witness. -/
def eorderEx : List (Nat × Nat) := [(6, 0)]

-- ============================================================================
-- C9: src/utils/rag_utils.py — extract_largest_json
-- ============================================================================

/-- Opening curly bracket, written by code point. -/
def lbrace : Char := Char.ofNat 123

/-- Closing curly bracket, written by code point. -/
def rbrace : Char := Char.ofNat 125

/-- One step of the stack scan of `extract_largest_json`
(src/utils/rag_utils.py, lines 285-305).  The state is the stack of
pending opening brackets with their positions, and the candidate
substrings collected so far; an opening bracket is pushed, a closing
bracket pops the stack and, when the brackets match, appends the enclosed
substring; an unmatched closing bracket with an empty stack is skipped. -/
def jsonScanStep (full : List Char) (st : List (Char × Nat) × List (List Char))
    (ic : Nat × Char) : List (Char × Nat) × List (List Char) :=
  let i := ic.1
  let c := ic.2
  if c = lbrace ∨ c = '[' then ((c, i) :: st.1, st.2)
  else if c = rbrace ∨ c = ']' then
    match st.1 with
    | [] => st
    | (ob, si) :: rest =>
      if (ob = lbrace ∧ c = rbrace) ∨ (ob = '[' ∧ c = ']') then
        (rest, st.2 ++ [(full.drop si).take (i + 1 - si)])
      else (rest, st.2)
  else st

/-- All complete bracket-matched substrings of a response, in the order
the scan completes them. -/
def scanCandidates (s : List Char) : List (List Char) :=
  (s.enum.foldl (jsonScanStep s) ([], [])).2

/-- Embedding of the selection loop of `extract_largest_json`
(src/utils/rag_utils.py, lines 307-330): parse each candidate and keep the
first strictly larger valid one; `none` models the final `ValueError`.
`parse` stands for the external `json.loads` and is a parameter of the
embedding. -/
def extract_largest_json {J : Type _} (parse : List Char → Option J)
    (response : List Char) : Option J :=
  ((scanCandidates response).foldl
    (fun acc potential_json =>
      match parse potential_json with
      | some parsed_json =>
        if potential_json.length > acc.2 then (some parsed_json, potential_json.length)
        else acc
      | none => acc)
    (none, 0)).1

/-- Spec-side: the length of the longest string of a list (0 when empty). -/
def maxLenOf (l : List (List Char)) : Nat := (l.map List.length).foldr max 0

/-- Spec-side: the first string of maximal length in a list. -/
def firstLongest (l : List (List Char)) : Option (List Char) :=
  l.find? (fun c => c.length = maxLenOf l)

/-- Example parse oracle for the C9 witness; as `json.loads` does, it
rejects the empty string. -/
def parseEx : List Char → Option Nat :=
  fun s =>
    if s = "[1]".data then some 1
    else if s = [lbrace, rbrace] then some 0
    else none

/-- Example response for the C9 witness: an empty object followed by a
one-element array. -/
def responseEx : List Char := [lbrace, rbrace, '[', '1', ']']

-- ============================================================================
-- Shared string helpers: whitespace, stripping, decimal digits
-- ============================================================================

/-- ASCII whitespace recognised by Python's \s and str.strip: space, tab,
newline, carriage return, vertical tab, form feed. -/
def isPySpace (c : Char) : Bool :=
  c == ' ' || c == '\t' || c == '\n' || c == '\r' || c.toNat == 11 || c.toNat == 12

/-- Python str.strip(). -/
def pyStrip (s : PyStr) : PyStr :=
  ((s.dropWhile isPySpace).reverse.dropWhile isPySpace).reverse

/-- Decimal digit character for a digit value below ten. -/
def digitChar : Nat → Char
  | 0 => '0'
  | 1 => '1'
  | 2 => '2'
  | 3 => '3'
  | 4 => '4'
  | 5 => '5'
  | 6 => '6'
  | 7 => '7'
  | 8 => '8'
  | _ => '9'

/-- Digit accumulation for `natToChars`.  The first argument is fuel, at
least the number of digits of n, which keeps the recursion structural;
the fuel never runs out because n shrinks by a factor of ten per step. -/
def natToCharsAux : Nat → Nat → List Char → List Char
  | 0, _, acc => acc
  | fuel + 1, n, acc =>
    if n = 0 then acc else natToCharsAux fuel (n / 10) (digitChar (n % 10) :: acc)

/-- Python str() of a natural number. -/
def natToChars (n : Nat) : List Char :=
  if n = 0 then ['0'] else natToCharsAux n n []

/-- ASCII decimal digit test (Python str.isdigit on the ASCII strings this
code handles). -/
def isDigitChar (c : Char) : Bool :=
  decide (48 ≤ c.toNat) && decide (c.toNat ≤ 57)

/-- Python str.isdigit: non-empty and all digits. -/
def isDigitToken (t : PyStr) : Bool := !t.isEmpty && t.all isDigitChar

/-- Decimal value of a digit string. -/
def parseVal (t : PyStr) : Nat := t.foldl (fun acc c => 10 * acc + (c.toNat - 48)) 0

/-- Python int() on a decimal digit string; `none` models the ValueError
raised on anything else. -/
def parseNat (t : PyStr) : Option Nat :=
  if isDigitToken t then some (parseVal t) else none

-- ============================================================================
-- C5: src/components/generic_preprocessor.py — GenericPreprocessor
-- ============================================================================

/-- Sentence-ending punctuation of the preprocessor: '.', '!', '?'. -/
def isSentEnd (c : Char) : Bool := c == '.' || c == '!' || c == '?'

/-- Embedding of re.split(r'(?<=[.!?])\s+', text)
(generic_preprocessor.py, line 41): pieces are cut at every maximal
whitespace run whose preceding character is '.', '!' or '?'.  `acc` is
the reversed piece being built; `skipping` is true while consuming the
whitespace run just after a cut. -/
def splitSentAux : List Char → List Char → Bool → List PyStr
  | [], acc, _ => [acc.reverse]
  | c :: rest, acc, skipping =>
    if skipping then
      if isPySpace c then splitSentAux rest acc true
      else splitSentAux rest [c] false
    else if isPySpace c && (match acc.head? with
        | some p => isSentEnd p
        | none => false) then
      acc.reverse :: splitSentAux rest [] true
    else splitSentAux rest (c :: acc) false

/-- The sentence split of `process_chunk_text`. -/
def splitSentences (text : PyStr) : List PyStr := splitSentAux text [] false

/-- Embedding of the labelling of one stripped non-empty sentence
(generic_preprocessor.py, lines 48-51): the marker goes before a trailing
'.', '!' or '?', and at the end otherwise. -/
def labelSentence (sent : PyStr) (counter : Nat) : PyStr :=
  match sent.reverse with
  | last :: _ =>
    if isSentEnd last then
      sent.dropLast ++ " [Sen ".data ++ natToChars counter ++ (']' :: [last])
    else sent ++ " [Sen ".data ++ natToChars counter ++ "]".data
  | [] => sent

/-- Embedding of the sentence loop of `process_chunk_text`
(generic_preprocessor.py, lines 43-53): strip, skip empties, label the
rest with consecutive counters. -/
def labelSentences : List PyStr → Nat → List PyStr × Nat
  | [], counter => ([], counter)
  | sent :: rest, counter =>
    let s := pyStrip sent
    if s.isEmpty then labelSentences rest counter
    else
      let r := labelSentences rest (counter + 1)
      (labelSentence s counter :: r.1, r.2)

/-- Embedding of `GenericPreprocessor.process_chunk_text`
(generic_preprocessor.py, lines 38-54). -/
def process_chunk_text (chunk : PyStr) (counter : Nat) : PyStr × Nat :=
  let text := chunk.map (fun c => if c = '\n' then ' ' else c)
  let sentences := splitSentences text
  let r := labelSentences sentences counter
  (List.intercalate [' '] r.1, r.2)

/-- One output record of `GenericPreprocessor.process_chunks`. -/
structure ChunkRec where
  id : PyStr
  origin_context : PyStr
  context : PyStr
  chunk_index : Nat
  char_count : Nat
deriving DecidableEq

/-- Embedding of the chunk loop of `GenericPreprocessor.process_chunks`
(generic_preprocessor.py, lines 60-77), threading the chunk index and the
sentence counter. -/
def processChunksAux (doc_id : PyStr) : List PyStr → Nat → Nat → List ChunkRec
  | [], _, _ => []
  | chunk :: rest, i, counter =>
    let r := process_chunk_text chunk counter
    { id := doc_id ++ "_chunk".data ++ natToChars (i + 1)
      origin_context := chunk
      context := r.1
      chunk_index := i
      char_count := chunk.length } :: processChunksAux doc_id rest (i + 1) r.2

/-- Embedding of `GenericPreprocessor.process_chunks`: sentence counters
start at 1 and chunk ids at chunk1. -/
def process_chunks (chunks : List PyStr) (doc_id : PyStr) : List ChunkRec :=
  processChunksAux doc_id chunks 0 1

/-- Spec-side: the non-empty stripped sentences of a chunk. -/
def sentencesOf (chunk : PyStr) : List PyStr :=
  ((splitSentences (chunk.map (fun c => if c = '\n' then ' ' else c))).map pyStrip).filter
    (fun s => !s.isEmpty)

/-- Spec-side: number of labelled sentences in the chunks before index i. -/
def sentCountBefore (chunks : List PyStr) (i : Nat) : Nat :=
  ((chunks.take i).map (fun c => (sentencesOf c).length)).sum

/-- Spec-side: the labelled context of one chunk whose first sentence gets
counter k — the j-th non-empty stripped sentence carries marker k + j, and
the labelled sentences are joined by single spaces. -/
def specContext (chunk : PyStr) (k : Nat) : PyStr :=
  List.intercalate [' ']
    (((sentencesOf chunk).enumFrom k).map (fun t => labelSentence t.2 t.1))

-- ============================================================================
-- C8: src/utils/rag_utils.py — expand_sen_ranges and expand_range
-- ============================================================================

/-- Ordered insertion, keeping duplicates (Python sorted() is a stable
sort; on naturals only the ordering matters). -/
def insLe (x : Nat) : List Nat → List Nat
  | [] => [x]
  | y :: ys => if x ≤ y then x :: y :: ys else y :: insLe x ys

/-- Python sorted() on a list of naturals. -/
def sortNats (l : List Nat) : List Nat := l.foldr insLe []

/-- Python token.split(sep) for a one-character separator: splits at every
occurrence, keeping empty pieces. -/
def splitOnChar (sep : Char) : List Char → List PyStr
  | [] => [[]]
  | c :: rest =>
    match splitOnChar sep rest with
    | [] => [[c]]
    | p :: ps => if c = sep then [] :: p :: ps else (c :: p) :: ps

/-- Embedding of `expand_range` (rag_utils.py, lines 124-132): a token
containing '-' must split into exactly two int-parsable parts and expands
to range(start, end + 1); any other token parses as a single int.  `none`
models the ValueError raised by int() or by unpacking. -/
def expand_range (token : PyStr) : Option (List Nat) :=
  if token.contains '-' then
    match splitOnChar '-' token with
    | [a, b] =>
      match parseNat a, parseNat b with
      | some s, some e => some (List.range' s (e + 1 - s))
      | _, _ => none
    | _ => none
  else (parseNat token).map (fun n => [n])

/-- The token for one number. -/
def singleTok (n : Nat) : PyStr := natToChars n

/-- The token "a-b" for a range. -/
def rangeTok (a b : Nat) : PyStr := natToChars a ++ '-' :: natToChars b

/-- Closing a run start..prev of `expand_sen_ranges` (rag_utils.py, lines
163-169 and 173-179): "start-prev" for runs of length at least three,
both endpoints for length two, the single number otherwise. -/
def closeRun (start prev : Nat) : List PyStr :=
  if prev ≥ start + 2 then [rangeTok start prev]
  else if prev = start + 1 then [singleTok start, singleTok prev]
  else [singleTok start]

/-- The run-accumulating loop of `expand_sen_ranges` (lines 159-170). -/
def esrLoop : Nat → Nat → List Nat → List PyStr
  | start, prev, [] => closeRun start prev
  | start, prev, num :: rest =>
    if num = prev + 1 then esrLoop start num rest
    else closeRun start prev ++ esrLoop num num rest

/-- Embedding of `expand_sen_ranges` (rag_utils.py, lines 147-181): sorts
the input (duplicates are kept) and walks it emitting runs. -/
def expand_sen_ranges (nums : List Nat) : List PyStr :=
  match sortNats nums with
  | [] => []
  | n :: rest => esrLoop n n rest

/-- Spec-side re-expansion from the claim: expand every token through
`expand_range` and concatenate, failing when any token fails. -/
def reexpand : List PyStr → Option (List Nat)
  | [] => some []
  | t :: rest =>
    match expand_range t, reexpand rest with
    | some xs, some ys => some (xs ++ ys)
    | _, _ => none

/-- Spec-side: merge a fresh run into a run decomposition, gluing it to
the next run when that one starts right after prev. -/
def mergeRun (start prev : Nat) : List (Nat × Nat) → List (Nat × Nat)
  | [] => [(start, prev)]
  | (a, b) :: more => if a = prev + 1 then (start, b) :: more else (start, prev) :: (a, b) :: more

/-- Spec-side: the maximal runs of consecutive numbers of an ascending
list, as (first, last) pairs. -/
def runsOf : List Nat → List (Nat × Nat)
  | [] => []
  | n :: rest => mergeRun n n (runsOf rest)

/-- Spec-side token rendering of a run decomposition: 'a-b' for runs of
length at least three, the individual numbers otherwise. -/
def fmtRuns (runs : List (Nat × Nat)) : List PyStr :=
  runs.flatMap (fun r =>
    if r.2 ≥ r.1 + 2 then [rangeTok r.1 r.2]
    else if r.2 = r.1 + 1 then [singleTok r.1, singleTok r.2]
    else [singleTok r.1])

-- ============================================================================
-- C2: src/utils/rag_utils.py — replace_clue_with_doc_and_sen
-- ============================================================================

/-- The clue-citation mapping: clue id, then doc id to sentence ids
(Python Dict[int, Dict[int, List[int]]]). -/
abbrev ClueMap := List (Nat × List (Nat × List Nat))

/-- Separator characters of re.split(r'[,\s]+', ...): comma or
whitespace. -/
def isTokenSep (c : Char) : Bool := c == ',' || isPySpace c

/-- Embedding of re.split(r'[,\s]+', group) (line 190): pieces are cut at
maximal runs of commas and whitespace; `skipping` is true while consuming
such a run. -/
def splitTokensAux : List Char → List Char → Bool → List PyStr
  | [], acc, _ => [acc.reverse]
  | c :: rest, acc, skipping =>
    if skipping then
      if isTokenSep c then splitTokensAux rest acc true
      else splitTokensAux rest [c] false
    else if isTokenSep c then acc.reverse :: splitTokensAux rest [] true
    else splitTokensAux rest (c :: acc) false

/-- The token split of the replacement callback. -/
def splitTokens (g : PyStr) : List PyStr := splitTokensAux g [] false

/-- Embedding of `expand_range_in_list` (rag_utils.py, lines 134-145):
'-' tokens go through expand_range (whose ValueError propagates), other
tokens are kept only when int-parsable (`token.isdigit()`). -/
def expand_range_in_list : List PyStr → Option (List Nat)
  | [] => some []
  | token :: rest =>
    if token.contains '-' then
      match expand_range token, expand_range_in_list rest with
      | some xs, some ys => some (xs ++ ys)
      | _, _ => none
    else
      match expand_range_in_list rest with
      | some ys =>
        match parseNat token with
        | some n => some (n :: ys)
        | none => some ys
      | none => none

/-- Python set.add on a set modelled as a duplicate-free list. -/
def setAdd (x : Nat) (s : List Nat) : List Nat := if x ∈ s then s else x :: s

/-- Python set.update with a list of new elements. -/
def setUnion (xs : List Nat) (s : List Nat) : List Nat :=
  xs.foldl (fun s x => setAdd x s) s

/-- The sentence-id set stored for a document (empty when absent). -/
def setAt (d : Nat) (m : List (Nat × List Nat)) : List Nat := (alookup d m).getD []

/-- Embedding of one doc_to_sens update (lines 199-202): create the
missing set, then union the sentence ids in. -/
def addDocSens (acc : List (Nat × List Nat)) (doc_id : Nat) (sen_ids : List Nat) :
    List (Nat × List Nat) :=
  match alookup doc_id acc with
  | some s => dictSet doc_id (setUnion sen_ids s) acc
  | none => dictSet doc_id (setUnion sen_ids []) acc

/-- Embedding of the doc_to_sens accumulation (lines 196-202): for each
expanded clue id found in the mapping, union its per-document sentence
ids. -/
def buildDocToSens (m : ClueMap) (clue_ids : List Nat) : List (Nat × List Nat) :=
  clue_ids.foldl
    (fun acc cid =>
      match alookup cid m with
      | some docmap => docmap.foldl (fun acc t => addDocSens acc t.1 t.2) acc
      | none => acc)
    []

/-- Embedding of the replacement callback of
`replace_clue_with_doc_and_sen` (rag_utils.py, lines 186-229): split the
group into tokens, expand clue ids, collect doc_to_sens; an empty
collection returns the whole match unchanged, otherwise one bracket group
per document in ascending order.  `none` models a ValueError escaping the
callback. -/
def clueReplacement (m : ClueMap) (g full : PyStr) : Option PyStr :=
  let tokens := splitTokens g
  match expand_range_in_list tokens with
  | none => none
  | some clue_ids =>
    let doc_to_sens := buildDocToSens m clue_ids
    if doc_to_sens.isEmpty then some full
    else
      let citations := (sortNats (doc_to_sens.map Prod.fst)).map (fun doc_id =>
        let sen_list := sortNats (setAt doc_id doc_to_sens)
        let sen_ranges := expand_sen_ranges sen_list
        if sen_ranges.isEmpty then ([] : PyStr)
        else "Doc ".data ++ natToChars doc_id ++ ", Sen ".data ++
          List.intercalate ", ".data sen_ranges)
      match citations with
      | [cit] => some ('[' :: cit ++ [']'])
      | _ => some (citations.flatMap (fun cit => '[' :: cit ++ [']']))

/-- The leftmost-match data of clue_pattern = \[Clue\s+([^\]]+)\]
(line 184) at a '[' whose tail is `rest`: the captured group (greedy
whitespace, with the one-character backtrack when everything before ']'
is whitespace), the whole match text, and the remaining input after the
match; `none` when no match starts here. -/
def clueMatchAt (rest : List Char) : Option (PyStr × PyStr × List Char) :=
  if "Clue".data.isPrefixOf rest then
    let r2 := rest.drop 4
    let u := r2.takeWhile (fun d => d ≠ ']')
    let closing := r2.dropWhile (fun d => d ≠ ']')
    if (match u.head? with
        | some w => isPySpace w
        | none => false) && decide (2 ≤ u.length) && !closing.isEmpty then
      let g := if (u.dropWhile isPySpace).isEmpty then [u.getLastD ' ']
               else u.dropWhile isPySpace
      some (g, '[' :: ("Clue".data ++ u ++ [']']), closing.tail)
    else none
  else none

/-- Leftmost, non-overlapping substitution of clue_pattern with the
callback `repl` (re.sub, line 232); `none` as soon as the callback
raises.  Structural recursion on a fuel counter: the scan consumes at
least one character per step, so fuel s.length never runs out. -/
def clueSubAux (repl : PyStr → PyStr → Option PyStr) : Nat → List Char → Option PyStr
  | 0, s => some s
  | _ + 1, [] => some []
  | fuel + 1, c :: rest =>
    if c = '[' then
      match clueMatchAt rest with
      | some md =>
        match repl md.1 md.2.1, clueSubAux repl fuel md.2.2 with
        | some r, some s => some (r ++ s)
        | _, _ => none
      | none =>
        match clueSubAux repl fuel rest with
        | some s => some (c :: s)
        | none => none
    else
      match clueSubAux repl fuel rest with
      | some s => some (c :: s)
      | none => none

/-- Embedding of `replace_clue_with_doc_and_sen` (rag_utils.py, lines
105-234); `none` models a ValueError raised while processing a
citation. -/
def replace_clue_with_doc_and_sen (m : ClueMap) (positive_answer : PyStr) : Option PyStr :=
  clueSubAux (clueReplacement m) positive_answer.length positive_answer

/-- The groups of all clue citations of a string, in match order (same
scan as the substitution). -/
def clueGroupsAux : Nat → List Char → List PyStr
  | 0, _ => []
  | _ + 1, [] => []
  | fuel + 1, c :: rest =>
    if c = '[' then
      match clueMatchAt rest with
      | some md => md.1 :: clueGroupsAux fuel md.2.2
      | none => clueGroupsAux fuel rest
    else clueGroupsAux fuel rest

/-- The groups of all clue citations of a string. -/
def clueGroups (s : PyStr) : List PyStr := clueGroupsAux s.length s

/-- A '-' token is well formed when it splits into exactly two digit
parts (so that int() cannot raise on it). -/
def goodRangeTok (t : PyStr) : Bool :=
  match splitOnChar '-' t with
  | [a, b] => isDigitToken a && isDigitToken b
  | _ => false

/-- Sorted insertion without duplicates. -/
def sdInsert (x : Nat) : List Nat → List Nat
  | [] => [x]
  | y :: ys => if x < y then x :: y :: ys else if x = y then y :: ys else y :: sdInsert x ys

/-- Python sorted(set(...)): the strictly ascending list of the distinct
elements. -/
def sortedDedup (l : List Nat) : List Nat := l.foldr sdInsert []

/-- Spec-side: the clue ids selected by a token list. -/
def specClueIds (tokens : List PyStr) : List Nat :=
  tokens.flatMap (fun t =>
    if t.contains '-' then (expand_range t).getD []
    else
      match parseNat t with
      | some n => [n]
      | none => [])

/-- Spec-side: the documents selected by the expanded clue ids, in
ascending order without duplicates. -/
def hitDocs (m : ClueMap) (cids : List Nat) : List Nat :=
  sortedDedup (cids.flatMap (fun cid => ((alookup cid m).getD []).map Prod.fst))

/-- Spec-side: the distinct ascending sentence ids selected for one
document by the expanded clue ids. -/
def specSens (m : ClueMap) (cids : List Nat) (d : Nat) : List Nat :=
  sortedDedup (cids.flatMap (fun cid =>
    (((alookup cid m).getD []).filter (fun e => e.1 = d)).flatMap Prod.snd))

/-- Spec-side: one document's citation text "Doc d, Sen ..." with the
maximal runs of at least three consecutive sentence ids collapsed into
'a-b' ranges and shorter runs listed individually; a document carrying no
sentence ids yields empty citation text. -/
def specCitation (m : ClueMap) (cids : List Nat) (d : Nat) : PyStr :=
  let sens := specSens m cids d
  if sens.isEmpty then []
  else "Doc ".data ++ natToChars d ++ ", Sen ".data ++
    List.intercalate ", ".data (fmtRuns (runsOf sens))

/-- Spec-side replacement of one citation: unchanged when the expanded
clue ids select no document, otherwise one bracket group per selected
document in ascending document order. -/
def specReplacement (m : ClueMap) (g full : PyStr) : PyStr :=
  let cids := specClueIds (splitTokens g)
  let docs := hitDocs m cids
  if docs.isEmpty then full
  else docs.flatMap (fun d => '[' :: (specCitation m cids d ++ [']']))

/-- Spec-side substitution: every clue citation replaced according to
`specReplacement`, scanning left to right without overlap. -/
def specClueSubAux (m : ClueMap) : Nat → List Char → PyStr
  | 0, s => s
  | _ + 1, [] => []
  | fuel + 1, c :: rest =>
    if c = '[' then
      match clueMatchAt rest with
      | some md => specReplacement m md.1 md.2.1 ++ specClueSubAux m fuel md.2.2
      | none => c :: specClueSubAux m fuel rest
    else c :: specClueSubAux m fuel rest

/-- Spec-side substitution at full fuel. -/
def specClueSub (m : ClueMap) (s : PyStr) : PyStr := specClueSubAux m s.length s

-- ============================================================================
-- Theorems
-- ============================================================================

/-- Folding a filtered append equals an appended filter-map. -/
theorem foldl_filter_append {α β : Type _} (p : α → Bool) (f : α → β) :
    ∀ (l : List α) (acc : List β),
      l.foldl (fun r x => if p x then r ++ [f x] else r) acc = acc ++ (l.filter p).map f
  | [], acc => by simp
  | x :: rest, acc => by
    simp only [List.foldl_cons, List.filter_cons]
    by_cases h : p x = true
    · rw [if_pos h, if_pos h, List.map_cons, foldl_filter_append p f rest (acc ++ [f x])]
      simp
    · rw [if_neg h, if_neg h, foldl_filter_append p f rest acc]

/-- Unfolding of `process_chunk` as a filter-and-map over the blocks. -/
theorem process_chunk_eq (c : Chunk) :
    process_chunk c = ((c.proposed.map Prod.snd).filter qblockValid).map (specRecordOf c) := by
  unfold process_chunk
  have h :
      (fun (results : List ExtractedQ) (qitem : PyStr × QBlock) =>
        let qblock := qitem.2
        let question := qblock.question
        let corrected := qblock.corrected.getD emptyCorrected
        let short := corrected.short.getD emptyShort
        let short_answer := short.answer
        let reason := short.reason
        if pyTruthy question && pyTruthy short_answer && pyTruthy reason then
          results ++
            [{ context := c.id
               question := question.getD []
               short_answer := short_answer.getD []
               reason := reason.getD []
               origin := extract_origins (short_answer.getD []) }]
        else results) =
      (fun results qitem =>
        if qblockValid qitem.2 then results ++ [specRecordOf c qitem.2] else results) := by
    funext results qitem
    simp [qblockValid, specRecordOf, shortAnswerOf, reasonOf]
  rw [h]
  have base := foldl_filter_append (fun qitem : PyStr × QBlock => qblockValid qitem.2)
      (fun qitem => specRecordOf c qitem.2) c.proposed []
  refine Eq.trans base ?_
  simp only [List.nil_append, List.filter_map, List.map_map]
  rfl

/-- C4. `QuestionExtractor.run` returns exactly the proposed questions whose
question, corrected short answer and reason are all present and non-empty;
each record carries the chunk id as context, the short answer, the reason
and the bracketed citations of the short answer; the returned total is the
length of the returned list. -/
theorem questionExtractor_run_spec (inputs : List Chunk) :
    (questionExtractorRun inputs).1 = specExtracted inputs ∧
    (questionExtractorRun inputs).2 = (specExtracted inputs).length := by
  have key : ∀ (l : List Chunk) (acc : List ExtractedQ),
      l.foldl (fun acc chunk => acc ++ process_chunk chunk) acc = acc ++ specExtracted l := by
    intro l
    induction l with
    | nil => intro acc; simp [specExtracted]
    | cons c rest ih =>
      intro acc
      simp only [List.foldl_cons]
      rw [ih, process_chunk_eq]
      simp [specExtracted]
  constructor
  · simpa using key inputs []
  · simp only [questionExtractorRun]
    rw [key inputs []]
    simp

/-- C6. `TaskManager.calculate_progress` returns 0 for a missing task or an
empty stage dict, otherwise the sum of the stage progress values divided by
8 for multi-hop and 6 for single-hop tasks, and the result stays in `[0,1]`
when every stage progress is in `[0,1]` and the stage count is at most the
divisor. -/
theorem calculate_progress_spec (tm : TaskManager) (tid : PyStr) :
    (alookup tid tm.tasks = none → calculate_progress tm tid = 0) ∧
    (∀ task, alookup tid tm.tasks = some task →
      (task.stages = [] → calculate_progress tm tid = 0) ∧
      (task.stages ≠ [] →
        calculate_progress tm tid =
          ((task.stages.map (fun s => s.2.progress)).sum) /
            (if task.task_type = TaskType.multi_hop then (8 : ℚ) else 6) ∧
        ((∀ s ∈ task.stages, 0 ≤ s.2.progress ∧ s.2.progress ≤ 1) →
          (task.stages.length : ℚ) ≤ (if task.task_type = TaskType.multi_hop then (8 : ℚ) else 6) →
          0 ≤ calculate_progress tm tid ∧ calculate_progress tm tid ≤ 1))) := by
  constructor
  · intro h
    simp [calculate_progress, h]
  · intro task htask
    constructor
    · intro hempty
      simp [calculate_progress, htask, hempty]
    · intro hne
      have hnotempty : task.stages.isEmpty = false := by
        cases hstages : task.stages with
        | nil => exact absurd hstages hne
        | cons a b => simp [hstages]
      have heq : calculate_progress tm tid =
          ((task.stages.map (fun s => s.2.progress)).sum) /
            (if task.task_type = TaskType.multi_hop then (8 : ℚ) else 6) := by
        simp [calculate_progress, htask, hnotempty]
      refine ⟨heq, ?_⟩
      intro hbounds hlen
      set den : ℚ := if task.task_type = TaskType.multi_hop then (8 : ℚ) else 6 with hden
      have hdenpos : (0 : ℚ) < den := by
        rw [hden]; split <;> norm_num
      have hsum_nonneg : 0 ≤ (task.stages.map (fun s => s.2.progress)).sum := by
        apply List.sum_nonneg
        intro x hx
        obtain ⟨s, hs, rfl⟩ := List.mem_map.mp hx
        exact (hbounds s hs).1
      have hsum_le : (task.stages.map (fun s => s.2.progress)).sum ≤ (task.stages.length : ℚ) := by
        have := List.sum_le_card_nsmul (task.stages.map (fun s => s.2.progress)) 1 ?_
        · simpa using this
        · intro x hx
          obtain ⟨s, hs, rfl⟩ := List.mem_map.mp hx
          exact (hbounds s hs).2
      rw [heq]
      constructor
      · positivity
      · rw [div_le_one hdenpos]
        exact le_trans hsum_le hlen

/-- Witness for C6 at a concrete one-task manager. -/
theorem calculate_progress_spec_witness :
    calculate_progress tmEx ['t'] = 1 / 4 ∧
    0 ≤ calculate_progress tmEx ['t'] ∧ calculate_progress tmEx ['t'] ≤ 1 := by
  have h := calculate_progress_spec tmEx ['t']
  have h2 := h.2 taskEx rfl
  have h3 := h2.2 (by simp [taskEx])
  have hbounds : ∀ s ∈ taskEx.stages, 0 ≤ s.2.progress ∧ s.2.progress ≤ 1 := by
    intro s hs
    simp [taskEx] at hs
    rcases hs with rfl | rfl
    · norm_num
    · norm_num
  have hb := h3.2 hbounds (by rw [if_neg (by decide)]; norm_num [taskEx])
  refine ⟨?_, hb.1, hb.2⟩
  rw [h3.1]
  rw [if_neg (by decide)]
  norm_num [taskEx]

/-- Lookup after a dict assignment: the assigned key reads back the new
value, every other key is unaffected. -/
theorem alookup_dictSet {α β : Type _} [DecidableEq α] (k k' : α) (v : β) :
    ∀ m : List (α × β), alookup k (dictSet k' v m) = if k = k' then some v else alookup k m := by
  intro m
  induction m with
  | nil => simp [dictSet, alookup]
  | cons p rest ih =>
    obtain ⟨k₀, v₀⟩ := p
    simp only [dictSet]
    by_cases h : k' = k₀
    · rw [if_pos h]
      subst h
      by_cases hk : k = k'
      · simp [alookup, hk]
      · simp [alookup, hk]
    · rw [if_neg h]
      by_cases hk : k = k₀
      · subst hk
        have hkk : ¬k = k' := fun e => h e.symm
        simp [alookup, hkk]
      · simp [alookup, hk, ih]

/-- The name map built by the assignment loop reads back as the recorded
id, falling back to the initial map for unrecorded names. -/
theorem assign_lookup (nm : PyStr) :
    ∀ (es : List Entity) (beg : Nat) (m : List (PyStr × Nat)),
      (∀ e ∈ es, e.entity_name.isSome) →
      alookup nm (assignEntityIds es beg m).2.2 =
        match recordedId es beg nm with
        | some v => some v
        | none => alookup nm m := by
  intro es
  induction es with
  | nil => intro beg m _; simp [assignEntityIds, recordedId]
  | cons e rest ih =>
    intro beg m h
    have hname := h e (List.mem_cons_self e rest)
    obtain ⟨nmₑ, hnm⟩ := Option.isSome_iff_exists.mp hname
    have hrest : ∀ e' ∈ rest, e'.entity_name.isSome := fun e' he' => h e' (List.mem_cons_of_mem e he')
    simp only [assignEntityIds, recordedId]
    rw [ih (beg + 1) _ hrest]
    cases hrec : recordedId rest (beg + 1) nm with
    | some v => simp
    | none =>
      simp only []
      rw [alookup_dictSet]
      rw [hnm]
      simp only [Option.getD_some, Option.some.injEq]
      by_cases hEq : nm = nmₑ
      · subst hEq
        simp
      · rw [if_neg hEq, if_neg (fun e => hEq (e.symm))]

/-- A name has a recorded id exactly when some entity of the list carries
that name. -/
theorem recordedId_isSome (nm : PyStr) :
    ∀ (es : List Entity) (beg : Nat), (recordedId es beg nm).isSome = nameAmong es nm := by
  intro es
  induction es with
  | nil => intro beg; simp [recordedId, nameAmong]
  | cons e rest ih =>
    intro beg
    have hrest := ih (beg + 1)
    simp only [nameAmong] at hrest
    simp only [recordedId, nameAmong, List.any_cons]
    cases hrec : recordedId rest (beg + 1) nm with
    | some v =>
      rw [hrec] at hrest
      simp only [Option.isSome_some] at hrest ⊢
      rw [← hrest, Bool.or_true]
    | none =>
      rw [hrec] at hrest
      simp only [Option.isSome_none] at hrest ⊢
      rw [← hrest, Bool.or_false]
      by_cases hEq : e.entity_name = some nm
      · simp [hEq]
      · simp [hEq]

/-- The assignment loop does not change entity names. -/
theorem assign_names :
    ∀ (es : List Entity) (beg : Nat) (m : List (PyStr × Nat)),
      ((assignEntityIds es beg m).1).map (fun e => e.entity_name) =
        es.map (fun e => e.entity_name) := by
  intro es
  induction es with
  | nil => intro beg m; simp [assignEntityIds]
  | cons e rest ih =>
    intro beg m
    simp only [assignEntityIds, List.map_cons]
    rw [ih]

/-- Every recorded name-id pair is realised by an entity of the updated
list. -/
theorem assign_mem_of_recorded (nm : PyStr) (v : Nat) :
    ∀ (es : List Entity) (beg : Nat) (m : List (PyStr × Nat)),
      recordedId es beg nm = some v →
      ∃ e ∈ (assignEntityIds es beg m).1, e.entity_name = some nm ∧ e.entity_id = some v := by
  intro es
  induction es with
  | nil => intro beg m h; simp [recordedId] at h
  | cons e rest ih =>
    intro beg m h
    simp only [recordedId] at h
    cases hrec : recordedId rest (beg + 1) nm with
    | some v' =>
      rw [hrec] at h
      simp only [Option.some.injEq] at h
      subst h
      obtain ⟨e', he'mem, he'⟩ := ih (beg + 1) (dictSet (e.entity_name.getD []) _ m) hrec
      exact ⟨e', List.mem_cons_of_mem _ he'mem, he'⟩
    | none =>
      rw [hrec] at h
      simp only [] at h
      by_cases hEq : e.entity_name = some nm
      · rw [if_pos hEq] at h
        simp only [Option.some.injEq] at h
        refine ⟨_, List.mem_cons_self _ _, ?_, ?_⟩
        · exact hEq
        · simp [← h]
      · rw [if_neg hEq] at h
        cases h

/-- Per-document behaviour of `AddEntityId.run`: entity names survive
filtering unchanged, kept relationships are exactly those whose two names
are among the filtered entities, their ids are the recorded ids, and each
of those ids is realised by an entity of the output document. -/
theorem processEntityDoc_spec (beg : Nat) (doc : EntityDoc) (es : List Entity)
    (h : doc.entity = some es) :
    ∃ newEs,
      (processEntityDoc beg doc).1.entity = some newEs ∧
      newEs.map (fun e => e.entity_name) = (es.filter entityKept).map (fun e => e.entity_name) ∧
      (processEntityDoc beg doc).1.relationship = specRels (es.filter entityKept) beg doc.relationship ∧
      ∀ r ∈ (processEntityDoc beg doc).1.relationship,
        (∃ e ∈ newEs, e.entity_name = some r.source_entity_name ∧ e.entity_id = r.source_entity_id) ∧
        (∃ e ∈ newEs, e.entity_name = some r.target_entity_name ∧ e.entity_id = r.target_entity_id) := by
  have hfiltnames : ∀ e ∈ es.filter entityKept, e.entity_name.isSome := by
    intro e he
    have := List.of_mem_filter he
    simp [entityKept] at this
    exact this.1
  have hlook : ∀ nm, alookup nm (assignEntityIds (es.filter entityKept) beg []).2.2 =
      recordedId (es.filter entityKept) beg nm := by
    intro nm
    rw [assign_lookup nm (es.filter entityKept) beg [] hfiltnames]
    cases recordedId (es.filter entityKept) beg nm <;> simp [alookup]
  refine ⟨(assignEntityIds (es.filter entityKept) beg []).1, ?_, ?_, ?_, ?_⟩
  · simp [processEntityDoc, h]
  · rw [assign_names]
  · simp only [processEntityDoc, h, specRels, hlook, recordedId_isSome]
  · intro r hr
    simp only [processEntityDoc, h, List.mem_map] at hr
    obtain ⟨r₀, hr₀mem, hr₀⟩ := hr
    have hr₀filt := List.of_mem_filter hr₀mem
    simp only [Bool.and_eq_true, Option.isSome_iff_exists] at hr₀filt
    obtain ⟨⟨vs, hvs⟩, ⟨vt, hvt⟩⟩ := hr₀filt
    rw [hlook] at hvs hvt
    constructor
    · obtain ⟨e, hemem, hename, heid⟩ := assign_mem_of_recorded _ vs (es.filter entityKept) beg [] hvs
      refine ⟨e, hemem, ?_, ?_⟩
      · rw [← hr₀]; exact hename
      · rw [← hr₀]
        show e.entity_id =
          alookup r₀.source_entity_name (assignEntityIds (es.filter entityKept) beg []).2.2
        rw [heid, hlook, hvs]
    · obtain ⟨e, hemem, hename, heid⟩ := assign_mem_of_recorded _ vt (es.filter entityKept) beg [] hvt
      refine ⟨e, hemem, ?_, ?_⟩
      · rw [← hr₀]; exact hename
      · rw [← hr₀]
        show e.entity_id =
          alookup r₀.target_entity_name (assignEntityIds (es.filter entityKept) beg []).2.2
        rw [heid, hlook, hvt]

/-- Indexing the document loop: the output has one document per input, and
the i-th output document is the processed i-th input document at some
intermediate id counter. -/
theorem addEntityIdRunAux_get :
    ∀ (docs : List EntityDoc) (beg cnt : Nat),
      (addEntityIdRunAux docs beg cnt).1.length = docs.length ∧
      ∀ (i : Nat) (h : i < docs.length),
        ∃ beg', (addEntityIdRunAux docs beg cnt).1[i]? =
          some (processEntityDoc beg' (docs.get ⟨i, h⟩)).1 := by
  intro docs
  induction docs with
  | nil => intro beg cnt; exact ⟨rfl, fun i h => absurd h (Nat.not_lt_zero i)⟩
  | cons d rest ih =>
    intro beg cnt
    constructor
    · simp only [addEntityIdRunAux, List.length_cons]
      rw [(ih _ _).1]
    · intro i h
      cases i with
      | zero => exact ⟨beg, by simp [addEntityIdRunAux]⟩
      | succ j =>
        have hj : j < rest.length := Nat.lt_of_succ_lt_succ h
        obtain ⟨beg', hbeg'⟩ := (ih (processEntityDoc beg d).2.1
          (if (processEntityDoc beg d).2.2 then cnt + 1 else cnt)).2 j hj
        refine ⟨beg', ?_⟩
        simp only [addEntityIdRunAux, List.getElem?_cons_succ]
        exact hbeg'

/-- C10. After `AddEntityId.run`, in every processed document the retained
relationships are exactly those whose source and target names appear among
the document's filtered entities; their source/target entity ids equal the
ids recorded for those names, and each is realised by an output entity of
that document; entity names are preserved by filtering.  In direct mode the
function acts on a deep copy, so the caller's list is unmodified (the
embedding is a pure function of the input value). -/
theorem addEntityId_run_spec (inputs : List EntityDoc) :
    (addEntityIdRun inputs).1.length = inputs.length ∧
    ∀ (i : Nat) (h : i < inputs.length) (es : List Entity),
      (inputs.get ⟨i, h⟩).entity = some es →
      ∃ (beg : Nat) (newEs : List Entity) (outDoc : EntityDoc),
        (addEntityIdRun inputs).1[i]? = some outDoc ∧
        outDoc.entity = some newEs ∧
        newEs.map (fun e => e.entity_name) = (es.filter entityKept).map (fun e => e.entity_name) ∧
        outDoc.relationship = specRels (es.filter entityKept) beg (inputs.get ⟨i, h⟩).relationship ∧
        ∀ r ∈ outDoc.relationship,
          (∃ e ∈ newEs, e.entity_name = some r.source_entity_name ∧ e.entity_id = r.source_entity_id) ∧
          (∃ e ∈ newEs, e.entity_name = some r.target_entity_name ∧ e.entity_id = r.target_entity_id) := by
  obtain ⟨hlen, hget⟩ := addEntityIdRunAux_get inputs 0 0
  refine ⟨hlen, ?_⟩
  intro i h es hes
  obtain ⟨beg', hbeg'⟩ := hget i h
  obtain ⟨newEs, h1, h2, h3, h4⟩ := processEntityDoc_spec beg' (inputs.get ⟨i, h⟩) es hes
  exact ⟨beg', newEs, (processEntityDoc beg' (inputs.get ⟨i, h⟩)).1, hbeg', h1, h2, h3, h4⟩

/-- Witness for C10 on a concrete two-entity document. -/
theorem addEntityId_run_spec_witness :
    0 < ([docEx] : List EntityDoc).length ∧
    (∃ (beg : Nat) (newEs : List Entity) (outDoc : EntityDoc),
      (addEntityIdRun [docEx]).1[0]? = some outDoc ∧
      outDoc.entity = some newEs ∧
      newEs.map (fun e => e.entity_name) =
        (entListEx.filter entityKept).map (fun e => e.entity_name) ∧
      outDoc.relationship =
        specRels (entListEx.filter entityKept) beg
          (([docEx] : List EntityDoc).get ⟨0, by decide⟩).relationship ∧
      ∀ r ∈ outDoc.relationship,
        (∃ e ∈ newEs, e.entity_name = some r.source_entity_name ∧ e.entity_id = r.source_entity_id) ∧
        (∃ e ∈ newEs, e.entity_name = some r.target_entity_name ∧ e.entity_id = r.target_entity_id)) := by
  refine ⟨by decide, ?_⟩
  exact (addEntityId_run_spec [docEx]).2 0 (by decide) entListEx (by rfl)

/-- C1. Every completed run of `run_pipeline_with_tracking` executes the
six single-hop stages in the fixed order Preprocessor, FactExtractor,
ProposeGenerator, FinalAnswerGenerator, AnswerEvaluator,
QuestionExtractor, and each stage after the first consumes exactly the
data output the previous stage produced (the preprocessor hands its chunk
list over through its chunked-output file). -/
theorem run_pipeline_order_and_threading {Data Extracted : Type _}
    (st : PipelineStages Data Extracted) (initialStore : Option Data)
    (cancel : Nat → Bool) (res : PipelineResult Data Extracted)
    (trace : List (StageExec Data))
    (h : run_pipeline_with_tracking st initialStore cancel = (some res, trace)) :
    ∃ d1 d2 d3 d4 d5 : Data,
      d1 = st.preprocessorChunks ∧
      trace =
        [⟨"preprocessor".data, none, some d1⟩,
         ⟨"fact_extractor".data, some d1, some d2⟩,
         ⟨"propose_generator".data, some d2, some d3⟩,
         ⟨"final_answer_generator".data, some d3, some d4⟩,
         ⟨"answer_evaluator".data, some d4, some d5⟩,
         ⟨"question_extractor".data, some d5, none⟩] := by
  by_cases h0 : cancel 0
  · simp [run_pipeline_with_tracking, h0] at h
  by_cases h1 : cancel 1
  · simp [run_pipeline_with_tracking, h0, h1] at h
  by_cases h2 : cancel 2
  · simp [run_pipeline_with_tracking, h0, h1, h2] at h
  by_cases h3 : cancel 3
  · simp [run_pipeline_with_tracking, h0, h1, h2, h3] at h
  by_cases h4 : cancel 4
  · simp [run_pipeline_with_tracking, h0, h1, h2, h3, h4] at h
  by_cases h5 : cancel 5
  · simp [run_pipeline_with_tracking, h0, h1, h2, h3, h4, h5] at h
  simp only [run_pipeline_with_tracking, h0, h1, h2, h3, h4, h5, if_false,
    Bool.false_eq_true, Prod.mk.injEq, Option.some.injEq] at h
  exact ⟨st.preprocessorChunks, _, _, _, _, rfl, h.2.symm⟩

/-- Witness for C1 with concrete stage oracles and no cancellation. -/
theorem run_pipeline_order_and_threading_witness :
    ∃ d1 d2 d3 d4 d5 : Nat,
      d1 = stEx.preprocessorChunks ∧
      ([⟨"preprocessor".data, none, some 0⟩,
        ⟨"fact_extractor".data, some 0, some 1⟩,
        ⟨"propose_generator".data, some 1, some 2⟩,
        ⟨"final_answer_generator".data, some 2, some 3⟩,
        ⟨"answer_evaluator".data, some 3, some 4⟩,
        ⟨"question_extractor".data, some 4, none⟩] : List (StageExec Nat)) =
        [⟨"preprocessor".data, none, some d1⟩,
         ⟨"fact_extractor".data, some d1, some d2⟩,
         ⟨"propose_generator".data, some d2, some d3⟩,
         ⟨"final_answer_generator".data, some d3, some d4⟩,
         ⟨"answer_evaluator".data, some d4, some d5⟩,
         ⟨"question_extractor".data, some d5, none⟩] :=
  run_pipeline_order_and_threading stEx none (fun _ => false)
    ⟨4, 7, 0, 0, 2, 0, 0⟩ _ rfl

/-- Indices never touched by the completion loop keep their entries. -/
theorem proposeApplyResults_untouched {PQ ρ : Type _}
    (outcome : Nat → PGItem PQ ρ → Option (PGItem PQ ρ × Nat)) :
    ∀ (order : List (Nat × PGItem PQ ρ)) (cur : List (PGItem PQ ρ)) (j : Nat),
      (∀ t ∈ order, t.1 ≠ j) →
      (proposeApplyResults outcome order cur)[j]? = cur[j]? := by
  intro order
  induction order with
  | nil => intro cur j _; rfl
  | cons t rest ih =>
    intro cur j hne
    obtain ⟨i, item⟩ := t
    have hij : i ≠ j := hne (i, item) (List.mem_cons_self _ _)
    have hrest : ∀ t ∈ rest, t.1 ≠ j := fun t ht => hne t (List.mem_cons_of_mem _ ht)
    simp only [proposeApplyResults]
    cases outcome i item with
    | some result =>
      rw [ih (cur.set i result.1) j hrest, List.getElem?_set_ne hij]
    | none => exact ih cur j hrest

/-- Entity ids never touched by the entity-graph completion loop keep
their stored outputs. -/
theorem entityApplyResults_untouched {E V : Type _} (outcome : Nat → E → Option V) :
    ∀ (order : List (Nat × E)) (cur : List (Nat × V)) (k : Nat),
      (∀ t ∈ order, t.1 ≠ k) →
      alookup k (entityApplyResults outcome order cur) = alookup k cur := by
  intro order
  induction order with
  | nil => intro cur k _; rfl
  | cons t rest ih =>
    intro cur k hne
    obtain ⟨eid, item⟩ := t
    have hek : eid ≠ k := hne (eid, item) (List.mem_cons_self _ _)
    have hrest : ∀ t ∈ rest, t.1 ≠ k := fun t ht => hne t (List.mem_cons_of_mem _ ht)
    simp only [entityApplyResults]
    cases outcome eid item with
    | some v =>
      rw [ih (dictSet eid v cur) k hrest, alookup_dictSet]
      rw [if_neg (fun e => hek e.symm)]
    | none => exact ih cur k hrest

/-- C3. Checkpointed resumption of `ProposeGenerator.run`: in content mode
only items lacking the "proposed-questions" key are submitted and every
item that already has the key survives unchanged, whatever the completion
order; in entity-graph mode every entity id already present in the
previously saved outputs is skipped, and the stored output of such an id
is never overwritten. -/
theorem propose_generator_checkpointing {PQ ρ E V : Type _}
    (maxGen : Nat) (inputs : List (PGItem PQ ρ))
    (outcome : Nat → PGItem PQ ρ → Option (PGItem PQ ρ × Nat))
    (order : List (Nat × PGItem PQ ρ))
    (horder : ∀ t ∈ order, t ∈ proposeSubmitted maxGen inputs)
    (alreadyDone : List Nat) (graphItems : List (Nat × E)) (viable : Nat → E → Bool)
    (eoutcome : Nat → E → Option V) (eorder : List (Nat × E))
    (heorder : ∀ t ∈ eorder, t ∈ entitySubmitted maxGen alreadyDone graphItems viable)
    (outputs₀ : List (Nat × V)) :
    (∀ t ∈ proposeSubmitted maxGen inputs, t.2.pq = none ∧ inputs[t.1]? = some t.2) ∧
    (∀ (j : Nat) (item : PGItem PQ ρ), inputs[j]? = some item → item.pq.isSome →
      (proposeApplyResults outcome order inputs)[j]? = some item) ∧
    (∀ t ∈ entitySubmitted maxGen alreadyDone graphItems viable, t.1 ∉ alreadyDone) ∧
    (∀ k ∈ alreadyDone,
      alookup k (entityApplyResults eoutcome eorder outputs₀) = alookup k outputs₀) := by
  have hsub : ∀ t ∈ proposeSubmitted maxGen inputs, t.2.pq = none ∧ inputs[t.1]? = some t.2 := by
    intro t ht
    obtain ⟨i, item⟩ := t
    simp only [proposeSubmitted, List.mem_filter] at ht
    obtain ⟨hmem, hnone⟩ := ht
    have hget := List.mk_mem_enum_iff_getElem?.mp hmem
    rw [List.getElem?_take] at hget
    constructor
    · exact Option.isNone_iff_eq_none.mp hnone
    · by_cases hlt : i < maxGen
      · rw [if_pos hlt] at hget; exact hget
      · rw [if_neg hlt] at hget; cases hget
  have hesub : ∀ t ∈ entitySubmitted maxGen alreadyDone graphItems viable,
      t.1 ∉ alreadyDone := by
    intro t ht
    simp only [entitySubmitted, List.mem_filter, Bool.and_eq_true, Bool.not_eq_true'] at ht
    intro hmem
    have hc := ht.2.1
    simp at hc
    exact hc hmem
  refine ⟨hsub, ?_, hesub, ?_⟩
  · intro j item hj hsome
    rw [proposeApplyResults_untouched outcome order inputs j ?_]
    · exact hj
    · intro t ht hteq
      obtain ⟨hnone, hget⟩ := hsub t (horder t ht)
      rw [hteq, hj] at hget
      obtain rfl := Option.some.injEq _ _ ▸ hget
      rw [hnone] at hsome
      cases hsome
  · intro k hk
    refine entityApplyResults_untouched eoutcome eorder outputs₀ k ?_
    intro t ht hteq
    exact (hesub t (heorder t ht)) (hteq ▸ hk)

/-- Witness for C3 at concrete inputs: the item that already carries
"proposed-questions" survives, the stored output of the already-done
entity id 5 is untouched. -/
theorem propose_generator_checkpointing_witness :
    ((inputsEx[0]? = some ⟨some 1, 0⟩) ∧ (⟨some 1, 0⟩ : PGItem Nat Nat).pq.isSome = true) ∧
    (proposeApplyResults outcomeEx orderEx inputsEx)[0]? = some ⟨some 1, 0⟩ ∧
    alookup 5 (entityApplyResults (fun _ _ => some 77) eorderEx outputsEx) =
      alookup 5 outputsEx := by
  have h := propose_generator_checkpointing 10 inputsEx outcomeEx orderEx
    (by decide)
    [5] graphItemsEx (fun _ _ => true) (fun _ _ => some 77) eorderEx
    (by decide) outputsEx
  refine ⟨⟨by decide, by decide⟩, ?_, ?_⟩
  · exact h.2.1 0 ⟨some 1, 0⟩ (by decide) (by decide)
  · exact h.2.2.2 5 (by decide)

/-- Folding lock-protected accumulations adds the listed contributions to
each counter. -/
theorem foldl_applyCall (results : Fin n → CallResult) :
    ∀ (order : List (Fin n)) (c₀ : Counters),
      order.foldl (fun c i => applyCall c (results i)) c₀ =
        ⟨c₀.total_prompt_tokens + (order.map (fun i => (results i).prompt_tokens)).sum,
         c₀.total_completion_tokens + (order.map (fun i => (results i).completion_tokens)).sum,
         c₀.total_questions_generated + (order.map (fun i => (results i).questions)).sum⟩ := by
  intro order
  induction order with
  | nil => intro c₀; simp
  | cons i rest ih =>
    intro c₀
    simp only [List.foldl_cons, List.map_cons, List.sum_cons]
    rw [ih (applyCall c₀ (results i))]
    simp only [applyCall]
    rw [Counters.mk.injEq]
    refine ⟨by omega, by omega, by omega⟩

/-- C7. The content-mode fan-out of `ProposeGenerator.run` admits at most
NUM_WORKERS calls in flight at any time (each call occupies one worker of
the bounded pool for its whole duration), and because every counter update
is performed under `token_lock`, the final counters are the same for every
completion interleaving: the sums of the prompt tokens, completion tokens
and question counts reported by the completed calls. -/
theorem propose_generator_concurrency (n W : Nat) (sc : PoolSchedule n W)
    (results : Fin n → CallResult) :
    (∀ t : Nat, (runningAt sc t).card ≤ W) ∧
    (∀ order : List (Fin n), order.Perm (List.finRange n) →
      order.foldl (fun c i => applyCall c (results i)) ⟨0, 0, 0⟩ =
        ⟨((List.finRange n).map (fun i => (results i).prompt_tokens)).sum,
         ((List.finRange n).map (fun i => (results i).completion_tokens)).sum,
         ((List.finRange n).map (fun i => (results i).questions)).sum⟩) := by
  constructor
  · intro t
    have hinj : Set.InjOn sc.worker (runningAt sc t) := by
      intro i hi j hj hij
      by_contra hne
      simp only [runningAt, Finset.coe_filter, Finset.mem_univ, true_and,
        Set.mem_setOf_eq] at hi hj
      rcases sc.exclusive i j hne hij with hlt | hlt
      · omega
      · omega
    calc (runningAt sc t).card ≤ (Finset.univ : Finset (Fin W)).card :=
          Finset.card_le_card_of_injOn sc.worker (fun a _ => Finset.mem_univ _) hinj
      _ = W := by simp
  · intro order hperm
    rw [foldl_applyCall results order ⟨0, 0, 0⟩]
    rw [Counters.mk.injEq]
    refine ⟨?_, ?_, ?_⟩
    · simpa using (hperm.map (fun i => (results i).prompt_tokens)).sum_eq
    · simpa using (hperm.map (fun i => (results i).completion_tokens)).sum_eq
    · simpa using (hperm.map (fun i => (results i).questions)).sum_eq

/-- Witness for C7: a two-call schedule on one worker, completions applied
out of submission order. -/
theorem propose_generator_concurrency_witness :
    (runningAt scEx 2).card ≤ 1 ∧
    ([1, 0] : List (Fin 2)).foldl (fun c i => applyCall c (resultsEx i)) ⟨0, 0, 0⟩ =
      ⟨11, 22, 33⟩ := by
  have h := propose_generator_concurrency 2 1 scEx resultsEx
  refine ⟨h.1 2, ?_⟩
  rw [h.2 [1, 0] (by decide)]
  decide

/-- Appending one string updates the maximal length by a `max`. -/
theorem maxLenOf_append_singleton (l : List (List Char)) (c : List Char) :
    maxLenOf (l ++ [c]) = max (maxLenOf l) c.length := by
  induction l with
  | nil => simp [maxLenOf, Nat.max_comm]
  | cons x rest ih =>
    simp only [maxLenOf, List.cons_append, List.map_cons, List.foldr_cons] at ih ⊢
    rw [ih, Nat.max_assoc]

/-- Every member is at most the maximal length. -/
theorem length_le_maxLenOf (l : List (List Char)) (x : List Char) (hx : x ∈ l) :
    x.length ≤ maxLenOf l := by
  induction l with
  | nil => cases hx
  | cons y rest ih =>
    have hcons : maxLenOf (y :: rest) = max y.length (maxLenOf rest) := rfl
    rcases List.mem_cons.mp hx with rfl | hmem
    · rw [hcons]; omega
    · have := ih hmem; rw [hcons]; omega

/-- A non-empty list attains its maximal length. -/
theorem exists_maxLenOf (l : List (List Char)) (h : l ≠ []) :
    ∃ x ∈ l, x.length = maxLenOf l := by
  induction l with
  | nil => exact absurd rfl h
  | cons x rest ih =>
    have hcons : maxLenOf (x :: rest) = max x.length (maxLenOf rest) := rfl
    by_cases hrest : rest = []
    · subst hrest
      exact ⟨x, List.mem_cons_self _ _, by simp [maxLenOf]⟩
    · obtain ⟨z, hz, hzlen⟩ := ih hrest
      by_cases hle : maxLenOf rest ≤ x.length
      · exact ⟨x, List.mem_cons_self _ _, by rw [hcons]; omega⟩
      · exact ⟨z, List.mem_cons_of_mem _ hz, by rw [hcons]; omega⟩

/-- Appending a strictly longer string makes it the first longest. -/
theorem firstLongest_append_big (l : List (List Char)) (c : List Char)
    (h : maxLenOf l < c.length) : firstLongest (l ++ [c]) = some c := by
  unfold firstLongest
  rw [List.find?_append, maxLenOf_append_singleton]
  have hmax : max (maxLenOf l) c.length = c.length := Nat.max_eq_right (Nat.le_of_lt h)
  rw [hmax]
  have hnone : l.find? (fun x => x.length = c.length) = none := by
    rw [List.find?_eq_none]
    intro x hx
    simp only [decide_eq_true_eq]
    have hxle := length_le_maxLenOf l x hx
    omega
  rw [hnone]
  simp

/-- Appending a string no longer than the current maximum of a non-empty
list leaves the first longest unchanged. -/
theorem firstLongest_append_small (l : List (List Char)) (c : List Char)
    (hne : l ≠ []) (h : c.length ≤ maxLenOf l) :
    firstLongest (l ++ [c]) = firstLongest l := by
  unfold firstLongest
  rw [List.find?_append, maxLenOf_append_singleton]
  have hmax : max (maxLenOf l) c.length = maxLenOf l := Nat.max_eq_left h
  rw [hmax]
  obtain ⟨x, hx, hxlen⟩ := exists_maxLenOf l hne
  have hsome : (l.find? (fun y => y.length = maxLenOf l)).isSome := by
    rw [List.find?_isSome]
    exact ⟨x, hx, by simp [hxlen]⟩
  obtain ⟨y, hy⟩ := Option.isSome_iff_exists.mp hsome
  rw [hy]
  simp

/-- The selection fold of `extract_largest_json` computes the parse of the
first longest parseable candidate, together with its length. -/
theorem extract_fold_spec {J : Type _} (parse : List Char → Option J)
    (hparse : parse [] = none) (cands : List (List Char)) :
    cands.foldl
      (fun acc potential_json =>
        match parse potential_json with
        | some parsed_json =>
          if potential_json.length > acc.2 then (some parsed_json, potential_json.length)
          else acc
        | none => acc)
      (none, 0) =
      ((firstLongest (cands.filter (fun c => (parse c).isSome))).bind parse,
        maxLenOf (cands.filter (fun c => (parse c).isSome))) := by
  induction cands using List.reverseRecOn with
  | nil => simp [firstLongest, maxLenOf]
  | append_singleton cs c ih =>
    rw [List.foldl_append, ih, List.filter_append, List.foldl_cons, List.foldl_nil]
    cases hp : parse c with
    | none =>
      simp only [List.filter_cons, List.filter_nil, hp, Option.isSome_none,
        Bool.false_eq_true, if_false, List.append_nil]
    | some v =>
      have hcne : c ≠ [] := by
        intro hc
        rw [hc, hparse] at hp
        cases hp
      simp only [List.filter_cons, List.filter_nil, hp, Option.isSome_some, if_true]
      set good := cs.filter (fun c => (parse c).isSome) with hgood
      by_cases hbig : c.length > maxLenOf good
      · rw [if_pos hbig, firstLongest_append_big good c hbig,
          maxLenOf_append_singleton]
        simp [hp, Nat.max_eq_right (Nat.le_of_lt hbig)]
      · rw [if_neg hbig]
        have hle : c.length ≤ maxLenOf good := Nat.le_of_not_lt hbig
        have hgoodne : good ≠ [] := by
          intro hnil
          rw [hnil] at hle
          simp only [maxLenOf, List.map_nil, List.foldr_nil, Nat.le_zero,
            List.length_eq_zero] at hle
          exact hcne hle
        rw [firstLongest_append_small good c hgoodne hle, maxLenOf_append_singleton,
          Nat.max_eq_left hle]

/-- C9. `extract_largest_json` returns the parsed value of the (first)
longest stack-matched bracket substring that parses as valid JSON, and
raises `ValueError` (modelled as `none`) exactly when no stack-matched
substring parses; `json.loads` is a parameter `parse` of the embedding,
assumed only to reject the empty string, as `json.loads("")` does. -/
theorem extract_largest_json_spec {J : Type _} (parse : List Char → Option J)
    (response : List Char) (hparse : parse [] = none) :
    extract_largest_json parse response =
      (firstLongest ((scanCandidates response).filter (fun c => (parse c).isSome))).bind parse ∧
    (extract_largest_json parse response = none ↔
      (scanCandidates response).filter (fun c => (parse c).isSome) = []) := by
  have hfold := extract_fold_spec parse hparse (scanCandidates response)
  have h1 : extract_largest_json parse response =
      (firstLongest ((scanCandidates response).filter (fun c => (parse c).isSome))).bind parse := by
    unfold extract_largest_json
    rw [hfold]
  refine ⟨h1, ?_⟩
  rw [h1]
  set good := (scanCandidates response).filter (fun c => (parse c).isSome) with hgood
  constructor
  · intro hnone
    by_contra hne
    obtain ⟨x, hx, hxlen⟩ := exists_maxLenOf good hne
    have hfind : (good.find? (fun c => c.length = maxLenOf good)).isSome := by
      rw [List.find?_isSome]
      exact ⟨x, hx, by simp [hxlen]⟩
    obtain ⟨y, hy⟩ := Option.isSome_iff_exists.mp hfind
    have hymem := List.mem_of_find?_eq_some hy
    have hysome : (parse y).isSome := by
      have := List.mem_filter.mp (hgood ▸ hymem)
      exact this.2
    unfold firstLongest at hnone
    rw [hy] at hnone
    have hpy : parse y = none := hnone
    rw [hpy] at hysome
    cases hysome
  · intro hempty
    rw [hempty]
    rfl

/-- Witness for C9: between an empty object and a one-element array the
longer array candidate wins. -/
theorem extract_largest_json_spec_witness :
    extract_largest_json parseEx responseEx = some 1 ∧
    extract_largest_json parseEx responseEx =
      (firstLongest ((scanCandidates responseEx).filter
        (fun c => (parseEx c).isSome))).bind parseEx := by
  have h := extract_largest_json_spec parseEx responseEx (by decide)
  exact ⟨by decide, h.1⟩

/-- The labelling loop keeps exactly the non-empty stripped sentences,
marks the j-th with counter k + j, and returns the counter advanced by
their number. -/
theorem labelSentences_spec :
    ∀ (sents : List PyStr) (k : Nat),
      labelSentences sents k =
        ((((sents.map pyStrip).filter (fun s => !s.isEmpty)).enumFrom k).map
          (fun t => labelSentence t.2 t.1),
         k + ((sents.map pyStrip).filter (fun s => !s.isEmpty)).length) := by
  intro sents
  induction sents with
  | nil => intro k; simp [labelSentences]
  | cons sent rest ih =>
    intro k
    by_cases hs : (pyStrip sent).isEmpty
    · simp only [labelSentences, hs, if_true, List.map_cons, List.filter_cons, Bool.not_true,
        Bool.false_eq_true, if_false]
      exact ih k
    · simp only [labelSentences, hs, if_false, List.map_cons, List.filter_cons, Bool.not_false,
        if_true, Bool.false_eq_true]
      rw [ih (k + 1)]
      simp only [List.enumFrom, List.map_cons, List.length_cons, Prod.mk.injEq]
      exact ⟨trivial, by omega⟩

/-- `process_chunk_text` produces the spec context and advances the
counter by the number of labelled sentences. -/
theorem process_chunk_text_spec (chunk : PyStr) (k : Nat) :
    process_chunk_text chunk k =
      (specContext chunk k, k + (sentencesOf chunk).length) := by
  simp only [process_chunk_text, specContext, sentencesOf]
  rw [labelSentences_spec]

/-- One sentence-count step. -/
theorem sentCountBefore_cons (c : PyStr) (rest : List PyStr) (j : Nat) :
    sentCountBefore (c :: rest) (j + 1) = (sentencesOf c).length + sentCountBefore rest j := by
  simp [sentCountBefore, List.take_succ_cons]

/-- Indexing characterisation of the chunk loop. -/
theorem processChunksAux_spec (doc_id : PyStr) :
    ∀ (chunks : List PyStr) (i counter : Nat),
      (processChunksAux doc_id chunks i counter).length = chunks.length ∧
      ∀ (j : Nat) (h : j < chunks.length),
        (processChunksAux doc_id chunks i counter)[j]? =
          some { id := doc_id ++ "_chunk".data ++ natToChars (i + j + 1)
                 origin_context := chunks.get ⟨j, h⟩
                 context := specContext (chunks.get ⟨j, h⟩) (counter + sentCountBefore chunks j)
                 chunk_index := i + j
                 char_count := (chunks.get ⟨j, h⟩).length } := by
  intro chunks
  induction chunks with
  | nil =>
    intro i counter
    exact ⟨rfl, fun j h => absurd h (Nat.not_lt_zero j)⟩
  | cons chunk rest ih =>
    intro i counter
    constructor
    · simp only [processChunksAux, List.length_cons]
      rw [(ih (i + 1) (process_chunk_text chunk counter).2).1]
    · intro j h
      cases j with
      | zero =>
        simp only [processChunksAux, List.getElem?_cons_zero, process_chunk_text_spec]
        rfl
      | succ j' =>
        have hj' : j' < rest.length := Nat.lt_of_succ_lt_succ h
        simp only [processChunksAux, List.getElem?_cons_succ, process_chunk_text_spec]
        have hrec := (ih (i + 1) (counter + (sentencesOf chunk).length)).2 j' hj'
        rw [hrec]
        simp only [Option.some.injEq, ChunkRec.mk.injEq]
        refine ⟨?_, rfl, ?_, by omega, rfl⟩
        · have heq : i + 1 + j' + 1 = i + (j' + 1) + 1 := by omega
          rw [heq]
        · rw [sentCountBefore_cons]
          congr 1
          omega

/-- C5. `GenericPreprocessor.process_chunks` returns one record per chunk:
its id is doc_id ++ "_chunk(i+1)", origin_context the untouched chunk
text, char_count the chunk's length, and its context labels the non-empty
stripped sentences with consecutive counters starting at 1 and continuing
across chunk boundaries, each marker placed before a trailing '.', '!' or
'?' and appended otherwise. -/
theorem process_chunks_spec (chunks : List PyStr) (doc_id : PyStr) :
    (process_chunks chunks doc_id).length = chunks.length ∧
    ∀ (i : Nat) (h : i < chunks.length),
      (process_chunks chunks doc_id)[i]? =
        some { id := doc_id ++ "_chunk".data ++ natToChars (i + 1)
               origin_context := chunks.get ⟨i, h⟩
               context := specContext (chunks.get ⟨i, h⟩) (1 + sentCountBefore chunks i)
               chunk_index := i
               char_count := (chunks.get ⟨i, h⟩).length } := by
  obtain ⟨hlen, hget⟩ := processChunksAux_spec doc_id chunks 0 1
  refine ⟨hlen, ?_⟩
  intro i h
  have := hget i h
  simpa using this

/-- Witness for C5 on two concrete chunks: counters continue across the
chunk boundary and the second record is fully determined. -/
theorem process_chunks_spec_witness :
    (process_chunks ["A. B!".data, "No dot".data] "doc1".data)[1]? =
      some { id := "doc1".data ++ "_chunk".data ++ natToChars (1 + 1)
             origin_context := (["A. B!".data, "No dot".data] : List PyStr).get ⟨1, by decide⟩
             context := specContext ((["A. B!".data, "No dot".data] : List PyStr).get ⟨1, by decide⟩)
               (1 + sentCountBefore ["A. B!".data, "No dot".data] 1)
             chunk_index := 1
             char_count := ((["A. B!".data, "No dot".data] : List PyStr).get ⟨1, by decide⟩).length } ∧
    (process_chunks ["A. B!".data, "No dot".data] "doc1".data)[1]? =
      some ⟨"doc1_chunk2".data, "No dot".data, "No dot [Sen 3]".data, 1, 6⟩ := by
  refine ⟨(process_chunks_spec ["A. B!".data, "No dot".data] "doc1".data).2 1 (by decide), ?_⟩
  decide

/-- Characters rendered for digit values below ten are ASCII digits with
the right value. -/
theorem digitChar_spec (d : Nat) (h : d < 10) :
    isDigitChar (digitChar d) = true ∧ (digitChar d).toNat - 48 = d := by
  interval_cases d <;> exact ⟨by decide, by decide⟩

/-- The accumulator of `natToCharsAux` is appended to the rendered
digits. -/
theorem natToCharsAux_append :
    ∀ (fuel n : Nat) (acc : List Char),
      natToCharsAux fuel n acc = natToCharsAux fuel n [] ++ acc := by
  intro fuel
  induction fuel with
  | zero => intro n acc; simp [natToCharsAux]
  | succ f ih =>
    intro n acc
    by_cases hn : n = 0
    · simp [natToCharsAux, hn]
    · simp only [natToCharsAux, hn, if_false]
      rw [ih (n / 10) (digitChar (n % 10) :: acc), ih (n / 10) [digitChar (n % 10)]]
      simp

/-- All rendered characters are ASCII digits. -/
theorem natToCharsAux_digits :
    ∀ (fuel n : Nat), n ≤ fuel → ∀ c ∈ natToCharsAux fuel n [], isDigitChar c = true := by
  intro fuel
  induction fuel with
  | zero => intro n _ c hc; simp [natToCharsAux] at hc
  | succ f ih =>
    intro n hn c hc
    by_cases h0 : n = 0
    · simp [natToCharsAux, h0] at hc
    · rw [natToCharsAux, if_neg h0, natToCharsAux_append] at hc
      rcases List.mem_append.mp hc with hmem | hmem
      · have hdiv : n / 10 ≤ f := by
          have := Nat.div_lt_self (Nat.pos_of_ne_zero h0) (by norm_num : 1 < 10)
          omega
        exact ih (n / 10) hdiv c hmem
      · have : c = digitChar (n % 10) := by simpa using hmem
        rw [this]
        exact (digitChar_spec (n % 10) (Nat.mod_lt n (by norm_num))).1

/-- Appending a digit multiplies the parsed value by ten and adds it. -/
theorem parseVal_append (s : PyStr) (c : Char) :
    parseVal (s ++ [c]) = 10 * parseVal s + (c.toNat - 48) := by
  simp [parseVal, List.foldl_append]

/-- The rendered digits of n parse back to n. -/
theorem parseVal_natToCharsAux :
    ∀ (fuel n : Nat), n ≤ fuel → parseVal (natToCharsAux fuel n []) = n := by
  intro fuel
  induction fuel with
  | zero => intro n hn; interval_cases n; simp [natToCharsAux, parseVal]
  | succ f ih =>
    intro n hn
    by_cases h0 : n = 0
    · simp [natToCharsAux, h0, parseVal]
    · rw [natToCharsAux, if_neg h0, natToCharsAux_append, parseVal_append]
      have hdiv : n / 10 ≤ f := by
        have := Nat.div_lt_self (Nat.pos_of_ne_zero h0) (by norm_num : 1 < 10)
        omega
      rw [ih (n / 10) hdiv, (digitChar_spec (n % 10) (Nat.mod_lt n (by norm_num))).2]
      omega

/-- Rendered numbers are never the empty string. -/
theorem natToCharsAux_ne_nil (fuel n : Nat) (hf : n ≤ fuel) (h0 : n ≠ 0) :
    natToCharsAux fuel n [] ≠ [] := by
  cases fuel with
  | zero => omega
  | succ f =>
    rw [natToCharsAux, if_neg h0, natToCharsAux_append]
    simp

/-- Every character of a rendered number is an ASCII digit. -/
theorem natToChars_digits (n : Nat) : ∀ c ∈ natToChars n, isDigitChar c = true := by
  intro c hc
  by_cases h0 : n = 0
  · simp [natToChars, h0] at hc
    rw [hc]
    decide
  · rw [natToChars, if_neg h0] at hc
    exact natToCharsAux_digits n n (Nat.le_refl n) c hc

/-- Python str and int round-trip on naturals. -/
theorem parseNat_natToChars (n : Nat) : parseNat (natToChars n) = some n := by
  by_cases h0 : n = 0
  · subst h0
    decide
  · have hne : natToChars n ≠ [] := by
      rw [natToChars, if_neg h0]
      exact natToCharsAux_ne_nil n n (Nat.le_refl n) h0
    have hdig : isDigitToken (natToChars n) = true := by
      unfold isDigitToken
      rw [Bool.and_eq_true, List.all_eq_true]
      refine ⟨by simpa using hne, fun c hc => natToChars_digits n c hc⟩
    rw [parseNat, if_pos hdig, natToChars, if_neg h0,
      parseVal_natToCharsAux n n (Nat.le_refl n)]

/-- A digit character is not a separator or bracket character. -/
theorem isDigitChar_ne (c : Char) (h : isDigitChar c = true) :
    c ≠ '-' ∧ c ≠ ']' ∧ c ≠ ',' ∧ isPySpace c = false := by
  unfold isDigitChar at h
  rw [Bool.and_eq_true, decide_eq_true_eq, decide_eq_true_eq] at h
  refine ⟨?_, ?_, ?_, ?_⟩
  · intro hc; rw [hc] at h; simp at h
  · intro hc; rw [hc] at h; simp at h
  · intro hc; rw [hc] at h; simp at h
  · unfold isPySpace
    have h1 : (c == ' ') = false := by
      rw [beq_eq_false_iff_ne]
      intro hc; rw [hc] at h; simp at h
    have h2 : (c == '\t') = false := by
      rw [beq_eq_false_iff_ne]
      intro hc; rw [hc] at h; simp at h
    have h3 : (c == '\n') = false := by
      rw [beq_eq_false_iff_ne]
      intro hc; rw [hc] at h; simp at h
    have h4 : (c == '\r') = false := by
      rw [beq_eq_false_iff_ne]
      intro hc; rw [hc] at h; simp at h
    have h5 : (c.toNat == 11) = false := by
      rw [beq_eq_false_iff_ne]
      omega
    have h6 : (c.toNat == 12) = false := by
      rw [beq_eq_false_iff_ne]
      omega
    rw [h1, h2, h3, h4, h5, h6]
    rfl

/-- Rendered numbers contain no '-'. -/
theorem natToChars_not_contains_dash (n : Nat) : (natToChars n).contains '-' = false := by
  rw [List.contains_eq_any_beq, List.any_eq_false]
  intro c hc hbeq
  have hcd : '-' = c := eq_of_beq hbeq
  have := (isDigitChar_ne c (natToChars_digits n c hc)).1
  exact this hcd.symm

/-- Splitting a separator-free string yields one piece. -/
theorem splitOnChar_no_sep (sep : Char) :
    ∀ (v : List Char), (∀ c ∈ v, c ≠ sep) → splitOnChar sep v = [v] := by
  intro v
  induction v with
  | nil => intro _; rfl
  | cons c rest ih =>
    intro h
    have hrest := ih (fun d hd => h d (List.mem_cons_of_mem _ hd))
    have hc : c ≠ sep := h c (List.mem_cons_self _ _)
    rw [splitOnChar, hrest]
    simp [hc]

/-- A split never returns an empty list of pieces. -/
theorem splitOnChar_ne_nil (sep : Char) : ∀ (v : List Char), splitOnChar sep v ≠ [] := by
  intro v
  cases v with
  | nil => simp [splitOnChar]
  | cons c rest =>
    rw [splitOnChar]
    cases splitOnChar sep rest with
    | nil => simp
    | cons p ps => by_cases h : c = sep <;> simp [h]

/-- Splitting u ++ sep :: v with sep-free u peels off u. -/
theorem splitOnChar_append (sep : Char) :
    ∀ (u v : List Char), (∀ c ∈ u, c ≠ sep) →
      splitOnChar sep (u ++ sep :: v) = u :: splitOnChar sep v := by
  intro u
  induction u with
  | nil =>
    intro v _
    rw [List.nil_append, splitOnChar]
    cases hsp : splitOnChar sep v with
    | nil => exact absurd hsp (splitOnChar_ne_nil sep v)
    | cons p ps => simp
  | cons c rest ih =>
    intro v h
    have hc : c ≠ sep := h c (List.mem_cons_self _ _)
    rw [List.cons_append, splitOnChar, ih v (fun d hd => h d (List.mem_cons_of_mem _ hd))]
    simp [hc]

/-- `expand_range` on a rendered single number. -/
theorem expand_range_singleTok (n : Nat) : expand_range (singleTok n) = some [n] := by
  unfold expand_range singleTok
  rw [natToChars_not_contains_dash]
  simp [parseNat_natToChars]

/-- `expand_range` on a rendered range token expands to the closed
range. -/
theorem expand_range_rangeTok (a b : Nat) :
    expand_range (rangeTok a b) = some (List.range' a (b + 1 - a)) := by
  unfold expand_range rangeTok
  have hdash : (natToChars a ++ '-' :: natToChars b).contains '-' = true := by
    rw [List.contains_eq_any_beq, List.any_eq_true]
    exact ⟨'-', by simp, by simp⟩
  rw [hdash]
  have hu : ∀ c ∈ natToChars a, c ≠ '-' :=
    fun c hc => (isDigitChar_ne c (natToChars_digits a c hc)).1
  have hv : ∀ c ∈ natToChars b, c ≠ '-' :=
    fun c hc => (isDigitChar_ne c (natToChars_digits b c hc)).1
  rw [if_pos rfl, splitOnChar_append '-' (natToChars a) (natToChars b) hu,
    splitOnChar_no_sep '-' (natToChars b) hv]
  show (match parseNat (natToChars a), parseNat (natToChars b) with
    | some s, some e => some (List.range' s (e + 1 - s))
    | _, _ => none) = some (List.range' a (b + 1 - a))
  rw [parseNat_natToChars, parseNat_natToChars]

/-- Re-expansion distributes over token concatenation. -/
theorem reexpand_append :
    ∀ (xs ys : List PyStr),
      reexpand (xs ++ ys) =
        match reexpand xs, reexpand ys with
        | some a, some b => some (a ++ b)
        | _, _ => none := by
  intro xs
  induction xs with
  | nil =>
    intro ys
    cases h : reexpand ys <;> simp [reexpand, h]
  | cons t rest ih =>
    intro ys
    rw [List.cons_append, reexpand, ih ys, reexpand]
    cases expand_range t <;> cases reexpand rest <;> cases reexpand ys <;> simp

/-- Closing a run re-expands to the closed interval. -/
theorem closeRun_reexpand (start prev : Nat) (h : start ≤ prev) :
    reexpand (closeRun start prev) = some (List.range' start (prev + 1 - start)) := by
  unfold closeRun
  by_cases h2 : prev ≥ start + 2
  · rw [if_pos h2]
    simp [reexpand, expand_range_rangeTok]
  · rw [if_neg h2]
    by_cases h1 : prev = start + 1
    · rw [if_pos h1, h1]
      simp only [reexpand, expand_range_singleTok]
      have h2' : start + 1 + 1 - start = 2 := by omega
      rw [h2']
      rfl
    · rw [if_neg h1]
      have : prev = start := by omega
      subst this
      simp only [reexpand, expand_range_singleTok]
      have h1' : prev + 1 - prev = 1 := by omega
      rw [h1']
      rfl

/-- The run loop re-expands to the open run followed by the remaining
ascending numbers. -/
theorem esrLoop_reexpand :
    ∀ (l : List Nat) (start prev : Nat), start ≤ prev → List.Chain (· < ·) prev l →
      reexpand (esrLoop start prev l) = some (List.range' start (prev + 1 - start) ++ l) := by
  intro l
  induction l with
  | nil =>
    intro start prev hle _
    rw [esrLoop, closeRun_reexpand start prev hle]
    simp
  | cons num rest ih =>
    intro start prev hle hchain
    rw [List.chain_cons] at hchain
    obtain ⟨hlt, hchain'⟩ := hchain
    rw [esrLoop]
    by_cases hnum : num = prev + 1
    · rw [if_pos hnum]
      rw [ih start num (by omega) (hnum ▸ hchain')]
      have harith : num + 1 - start = (prev + 1 - start) + 1 := by omega
      rw [harith, List.range'_concat]
      have : start + 1 * (prev + 1 - start) = num := by omega
      rw [this]
      simp
    · rw [if_neg hnum]
      rw [reexpand_append, closeRun_reexpand start prev hle,
        ih num num (Nat.le_refl num) hchain']
      have : num + 1 - num = 1 := by omega
      rw [this]
      simp [List.range']

/-- Ordered insertion is a permutation of consing. -/
theorem insLe_perm (x : Nat) : ∀ (l : List Nat), (insLe x l).Perm (x :: l) := by
  intro l
  induction l with
  | nil => simp [insLe]
  | cons z zs ihz =>
    rw [insLe]
    by_cases hxz : x ≤ z
    · rw [if_pos hxz]
    · rw [if_neg hxz]
      exact (ihz.cons z).trans (List.Perm.swap x z zs)

/-- Ordered insertion keeps sortedness. -/
theorem insLe_sorted (x : Nat) :
    ∀ (l : List Nat), l.Sorted (· ≤ ·) → (insLe x l).Sorted (· ≤ ·) := by
  intro l
  induction l with
  | nil => intro _; simp [insLe]
  | cons y ys ih =>
    intro hs
    rw [List.sorted_cons] at hs
    obtain ⟨hy, hys⟩ := hs
    rw [insLe]
    by_cases hxy : x ≤ y
    · rw [if_pos hxy]
      rw [List.sorted_cons]
      refine ⟨?_, List.sorted_cons.mpr ⟨hy, hys⟩⟩
      intro b hb
      rcases List.mem_cons.mp hb with rfl | hmem
      · exact hxy
      · exact le_trans hxy (hy b hmem)
    · rw [if_neg hxy]
      rw [List.sorted_cons]
      refine ⟨?_, ih hys⟩
      intro b hb
      have hb' : b ∈ x :: ys := (insLe_perm x ys).mem_iff.mp hb
      rcases List.mem_cons.mp hb' with rfl | hmem
      · omega
      · exact hy b hmem

/-- Python sorted() sorts. -/
theorem sortNats_sorted (l : List Nat) : (sortNats l).Sorted (· ≤ ·) := by
  induction l with
  | nil => simp [sortNats]
  | cons x rest ih => exact insLe_sorted x (sortNats rest) ih

/-- Python sorted() permutes its input. -/
theorem sortNats_perm (l : List Nat) : (sortNats l).Perm l := by
  induction l with
  | nil => rfl
  | cons x rest ih =>
    exact (insLe_perm x (sortNats rest)).trans (ih.cons x)

/-- Rendering one run matches closing one run. -/
theorem fmtRuns_single (a b : Nat) : fmtRuns [(a, b)] = closeRun a b := by
  simp [fmtRuns, closeRun]

/-- Rendering distributes over consing a run. -/
theorem fmtRuns_cons (r : Nat × Nat) (R : List (Nat × Nat)) :
    fmtRuns (r :: R) = fmtRuns [r] ++ fmtRuns R := by
  simp [fmtRuns]

/-- A merged decomposition starts with the inserted run's first number. -/
theorem mergeRun_head (n m : Nat) (R : List (Nat × Nat)) :
    ∃ b more, mergeRun n m R = (n, b) :: more := by
  cases R with
  | nil => exact ⟨m, [], rfl⟩
  | cons r more =>
    obtain ⟨a, b⟩ := r
    rw [mergeRun]
    by_cases h : a = m + 1
    · rw [if_pos h]
      exact ⟨b, more, rfl⟩
    · rw [if_neg h]
      exact ⟨m, (a, b) :: more, rfl⟩

/-- Gluing a fresh element below an adjacent run. -/
theorem mergeRun_glue (start prev num : Nat) (h : num = prev + 1) (R : List (Nat × Nat)) :
    mergeRun start prev (mergeRun num num R) = mergeRun start num R := by
  cases R with
  | nil =>
    rw [mergeRun, mergeRun, mergeRun, if_pos h]
  | cons r more =>
    obtain ⟨a, b⟩ := r
    rw [mergeRun]
    by_cases ha : a = num + 1
    · rw [if_pos ha, mergeRun, if_pos h, mergeRun, if_pos ha]
    · rw [if_neg ha, mergeRun, if_pos h, mergeRun, if_neg ha]

/-- The run loop renders exactly the spec-side maximal-run decomposition
with the open run merged in front. -/
theorem esrLoop_fmt :
    ∀ (l : List Nat) (start prev : Nat), List.Chain (· < ·) prev l → start ≤ prev →
      esrLoop start prev l = fmtRuns (mergeRun start prev (runsOf l)) := by
  intro l
  induction l with
  | nil =>
    intro start prev _ _
    rw [esrLoop, runsOf, mergeRun, fmtRuns_single]
  | cons num rest ih =>
    intro start prev hchain hle
    rw [List.chain_cons] at hchain
    obtain ⟨hlt, hchain'⟩ := hchain
    rw [esrLoop, runsOf]
    by_cases hnum : num = prev + 1
    · rw [if_pos hnum]
      rw [ih start num (hnum ▸ hchain') (by omega)]
      rw [mergeRun_glue start prev num hnum]
    · rw [if_neg hnum]
      rw [ih num num hchain' (Nat.le_refl num)]
      obtain ⟨b, more, hhead⟩ := mergeRun_head num num (runsOf rest)
      rw [hhead, mergeRun, if_neg hnum, fmtRuns_cons, fmtRuns_single]
      rw [fmtRuns_cons (start, prev), fmtRuns_single, fmtRuns_cons (num, b), fmtRuns_single]

/-- C8 (amended). For every duplicate-free list of naturals, re-expanding
the tokens of `expand_sen_ranges` — each 'a-b' into the closed range a..b,
single tokens as numbers — gives back exactly the sorted input, and the
emitted tokens are precisely the maximal consecutive runs of the sorted
input, 'a-b' for runs of length at least three and individual numbers
otherwise. -/
theorem expand_sen_ranges_roundtrip (nums : List Nat) (hnd : nums.Nodup) :
    reexpand (expand_sen_ranges nums) = some (sortNats nums) ∧
    expand_sen_ranges nums = fmtRuns (runsOf (sortNats nums)) := by
  have hsorted : (sortNats nums).Sorted (· ≤ ·) := sortNats_sorted nums
  have hnodup : (sortNats nums).Nodup := ((sortNats_perm nums).nodup_iff).mpr hnd
  have hstrict : (sortNats nums).Sorted (· < ·) := hsorted.lt_of_le hnodup
  unfold expand_sen_ranges
  cases hs : sortNats nums with
  | nil => exact ⟨rfl, rfl⟩
  | cons n rest =>
    rw [hs] at hstrict
    have hchain : List.Chain (· < ·) n rest := by
      have hchain' : List.Chain' (· < ·) (n :: rest) :=
        List.chain'_iff_pairwise.mpr hstrict
      exact hchain'
    constructor
    · show reexpand (esrLoop n n rest) = some (n :: rest)
      rw [esrLoop_reexpand rest n n (Nat.le_refl n) hchain]
      have h1 : n + 1 - n = 1 := by omega
      rw [h1]
      rfl
    · show esrLoop n n rest = fmtRuns (runsOf (n :: rest))
      rw [esrLoop_fmt rest n n hchain (Nat.le_refl n), runsOf]

/-- Counterexample to C8 as stated: with the duplicate input [1, 1] the
re-expansion returns [1, 1], not the sorted list of distinct elements
[1] (expand_sen_ranges sorts but never deduplicates). -/
theorem expand_sen_ranges_roundtrip_counterexample :
    reexpand (expand_sen_ranges [1, 1]) = some [1, 1] ∧
    sortNats (List.dedup [1, 1]) = [1] ∧ ([1, 1] : List Nat) ≠ [1] := by
  refine ⟨by decide, by decide, by decide⟩

/-- Witness for C8 on a concrete duplicate-free list. -/
theorem expand_sen_ranges_roundtrip_witness :
    reexpand (expand_sen_ranges [3, 1, 2, 5]) = some (sortNats [3, 1, 2, 5]) ∧
    expand_sen_ranges [3, 1, 2, 5] = fmtRuns (runsOf (sortNats [3, 1, 2, 5])) :=
  expand_sen_ranges_roundtrip [3, 1, 2, 5] (by decide)

/-- Membership in a Python-set add. -/
theorem mem_setAdd (x y : Nat) (s : List Nat) : y ∈ setAdd x s ↔ y = x ∨ y ∈ s := by
  unfold setAdd
  by_cases h : x ∈ s
  · rw [if_pos h]
    constructor
    · intro hy; exact Or.inr hy
    · intro hy; rcases hy with rfl | hy
      · exact h
      · exact hy
  · rw [if_neg h]
    exact List.mem_cons

/-- A Python-set add keeps the list duplicate-free. -/
theorem nodup_setAdd (x : Nat) (s : List Nat) (h : s.Nodup) : (setAdd x s).Nodup := by
  unfold setAdd
  by_cases hx : x ∈ s
  · rw [if_pos hx]; exact h
  · rw [if_neg hx]; exact List.nodup_cons.mpr ⟨hx, h⟩

/-- Membership in a Python-set union. -/
theorem mem_setUnion (xs : List Nat) :
    ∀ (s : List Nat) (y : Nat), y ∈ setUnion xs s ↔ y ∈ xs ∨ y ∈ s := by
  induction xs with
  | nil => intro s y; simp [setUnion]
  | cons x rest ih =>
    intro s y
    have : setUnion (x :: rest) s = setUnion rest (setAdd x s) := rfl
    rw [this, ih (setAdd x s) y, mem_setAdd]
    constructor
    · rintro (hy | rfl | hy)
      · exact Or.inl (List.mem_cons_of_mem _ hy)
      · exact Or.inl (List.mem_cons_self _ _)
      · exact Or.inr hy
    · rintro (hy | hy)
      · rcases List.mem_cons.mp hy with rfl | hy
        · exact Or.inr (Or.inl rfl)
        · exact Or.inl hy
      · exact Or.inr (Or.inr hy)

/-- A Python-set union keeps the list duplicate-free. -/
theorem nodup_setUnion (xs : List Nat) :
    ∀ (s : List Nat), s.Nodup → (setUnion xs s).Nodup := by
  induction xs with
  | nil => intro s h; exact h
  | cons x rest ih =>
    intro s h
    exact ih (setAdd x s) (nodup_setAdd x s h)

/-- The stored set after a dict assignment. -/
theorem setAt_dictSet (d k : Nat) (v : List Nat) (m : List (Nat × List Nat)) :
    setAt d (dictSet k v m) = if d = k then v else setAt d m := by
  unfold setAt
  rw [alookup_dictSet]
  by_cases h : d = k <;> simp [h]

/-- Keys after a dict assignment. -/
theorem mem_keys_dictSet {β : Type _} (d k : Nat) (v : β) :
    ∀ (m : List (Nat × β)), d ∈ (dictSet k v m).map Prod.fst ↔ d = k ∨ d ∈ m.map Prod.fst := by
  intro m
  induction m with
  | nil => simp [dictSet]
  | cons p rest ih =>
    obtain ⟨k₀, v₀⟩ := p
    rw [dictSet]
    by_cases h : k = k₀
    · subst h
      simp
    · rw [if_neg h]
      simp only [List.map_cons, List.mem_cons, ih]
      constructor
      · rintro (rfl | h1 | h2)
        · exact Or.inr (Or.inl rfl)
        · exact Or.inl h1
        · exact Or.inr (Or.inr h2)
      · rintro (rfl | rfl | h2)
        · exact Or.inr (Or.inl rfl)
        · exact Or.inl rfl
        · exact Or.inr (Or.inr h2)

/-- A dict assignment keeps keys duplicate-free. -/
theorem nodup_keys_dictSet {β : Type _} (k : Nat) (v : β) :
    ∀ (m : List (Nat × β)), (m.map Prod.fst).Nodup → ((dictSet k v m).map Prod.fst).Nodup := by
  intro m
  induction m with
  | nil => intro _; simp [dictSet]
  | cons p rest ih =>
    obtain ⟨k₀, v₀⟩ := p
    intro h
    simp only [List.map_cons, List.nodup_cons] at h
    obtain ⟨hk₀, hrest⟩ := h
    rw [dictSet]
    by_cases hk : k = k₀
    · subst hk
      rw [if_pos rfl]
      simp only [List.map_cons, List.nodup_cons]
      exact ⟨hk₀, hrest⟩
    · rw [if_neg hk]
      simp only [List.map_cons, List.nodup_cons]
      refine ⟨?_, ih hrest⟩
      intro hmem
      rcases (mem_keys_dictSet k₀ k v rest).mp hmem with rfl | hmem
      · exact hk rfl
      · exact hk₀ hmem

/-- The stored set after one doc_to_sens update. -/
theorem setAt_addDocSens (d' : Nat) (acc : List (Nat × List Nat)) (d : Nat) (sens : List Nat) :
    setAt d' (addDocSens acc d sens) = if d' = d then setUnion sens (setAt d acc) else setAt d' acc := by
  unfold addDocSens
  cases h : alookup d acc with
  | some s =>
    rw [setAt_dictSet]
    unfold setAt
    rw [h]
    rfl
  | none =>
    rw [setAt_dictSet]
    unfold setAt
    rw [h]
    rfl

/-- Keys after one doc_to_sens update. -/
theorem mem_keys_addDocSens (d' : Nat) (acc : List (Nat × List Nat)) (d : Nat) (sens : List Nat) :
    d' ∈ (addDocSens acc d sens).map Prod.fst ↔ d' = d ∨ d' ∈ acc.map Prod.fst := by
  unfold addDocSens
  cases alookup d acc <;> rw [mem_keys_dictSet]

/-- One doc_to_sens update keeps keys duplicate-free. -/
theorem nodup_keys_addDocSens (acc : List (Nat × List Nat)) (d : Nat) (sens : List Nat)
    (h : (acc.map Prod.fst).Nodup) : ((addDocSens acc d sens).map Prod.fst).Nodup := by
  unfold addDocSens
  cases alookup d acc <;> exact nodup_keys_dictSet d _ acc h

/-- One doc_to_sens update keeps every stored set duplicate-free. -/
theorem nodup_vals_addDocSens (acc : List (Nat × List Nat)) (d : Nat) (sens : List Nat)
    (h : ∀ d', (setAt d' acc).Nodup) : ∀ d', (setAt d' (addDocSens acc d sens)).Nodup := by
  intro d'
  rw [setAt_addDocSens]
  by_cases hd : d' = d
  · rw [if_pos hd]
    exact nodup_setUnion sens (setAt d acc) (h d)
  · rw [if_neg hd]
    exact h d'

/-- The sentence sets after folding one clue's document map. -/
theorem setAt_docFold (dm : List (Nat × List Nat)) :
    ∀ (acc : List (Nat × List Nat)) (d : Nat) (x : Nat),
      x ∈ setAt d (dm.foldl (fun acc t => addDocSens acc t.1 t.2) acc) ↔
        x ∈ setAt d acc ∨ ∃ e ∈ dm, e.1 = d ∧ x ∈ e.2 := by
  induction dm with
  | nil => intro acc d x; simp
  | cons e rest ih =>
    intro acc d x
    obtain ⟨d₀, sens₀⟩ := e
    rw [List.foldl_cons, ih]
    rw [setAt_addDocSens]
    by_cases hd : d = d₀
    · subst hd
      rw [if_pos rfl, mem_setUnion]
      constructor
      · rintro ((hx | hx) | ⟨e, he, hed, hex⟩)
        · exact Or.inr ⟨(d, sens₀), List.mem_cons_self _ _, rfl, hx⟩
        · exact Or.inl hx
        · exact Or.inr ⟨e, List.mem_cons_of_mem _ he, hed, hex⟩
      · rintro (hx | ⟨e, he, hed, hex⟩)
        · exact Or.inl (Or.inr hx)
        · rcases List.mem_cons.mp he with rfl | he'
          · exact Or.inl (Or.inl hex)
          · exact Or.inr ⟨e, he', hed, hex⟩
    · rw [if_neg hd]
      constructor
      · rintro (hx | ⟨e, he, hed, hex⟩)
        · exact Or.inl hx
        · exact Or.inr ⟨e, List.mem_cons_of_mem _ he, hed, hex⟩
      · rintro (hx | ⟨e, he, hed, hex⟩)
        · exact Or.inl hx
        · rcases List.mem_cons.mp he with rfl | he'
          · exact absurd (show d = d₀ from hed.symm) hd
          · exact Or.inr ⟨e, he', hed, hex⟩

/-- The keys after folding one clue's document map. -/
theorem keys_docFold (dm : List (Nat × List Nat)) :
    ∀ (acc : List (Nat × List Nat)) (d : Nat),
      d ∈ (dm.foldl (fun acc t => addDocSens acc t.1 t.2) acc).map Prod.fst ↔
        d ∈ acc.map Prod.fst ∨ ∃ e ∈ dm, e.1 = d := by
  induction dm with
  | nil => intro acc d; simp
  | cons e rest ih =>
    intro acc d
    obtain ⟨d₀, sens₀⟩ := e
    rw [List.foldl_cons, ih, mem_keys_addDocSens]
    constructor
    · rintro ((h | hd) | ⟨e, he, hed⟩)
      · exact Or.inr ⟨(d₀, sens₀), List.mem_cons_self _ _, h.symm⟩
      · exact Or.inl hd
      · exact Or.inr ⟨e, List.mem_cons_of_mem _ he, hed⟩
    · rintro (hd | ⟨e, he, hed⟩)
      · exact Or.inl (Or.inr hd)
      · rcases List.mem_cons.mp he with rfl | he'
        · exact Or.inl (Or.inl hed.symm)
        · exact Or.inr ⟨e, he', hed⟩

/-- Folding a document map preserves both duplicate-freeness
invariants. -/
theorem nodup_docFold (dm : List (Nat × List Nat)) :
    ∀ (acc : List (Nat × List Nat)),
      (acc.map Prod.fst).Nodup → (∀ d', (setAt d' acc).Nodup) →
      ((dm.foldl (fun acc t => addDocSens acc t.1 t.2) acc).map Prod.fst).Nodup ∧
      (∀ d', (setAt d' (dm.foldl (fun acc t => addDocSens acc t.1 t.2) acc)).Nodup) := by
  induction dm with
  | nil => intro acc h1 h2; exact ⟨h1, h2⟩
  | cons e rest ih =>
    intro acc h1 h2
    rw [List.foldl_cons]
    exact ih (addDocSens acc e.1 e.2)
      (nodup_keys_addDocSens acc e.1 e.2 h1)
      (nodup_vals_addDocSens acc e.1 e.2 h2)

/-- The sentence sets of the full doc_to_sens accumulation. -/
theorem setAt_buildDocToSens (m : ClueMap) (cids : List Nat) (d x : Nat) :
    x ∈ setAt d (buildDocToSens m cids) ↔
      ∃ cid ∈ cids, ∃ e ∈ (alookup cid m).getD [], e.1 = d ∧ x ∈ e.2 := by
  have key : ∀ (l : List Nat) (acc : List (Nat × List Nat)),
      x ∈ setAt d (l.foldl
        (fun acc cid =>
          match alookup cid m with
          | some docmap => docmap.foldl (fun acc t => addDocSens acc t.1 t.2) acc
          | none => acc) acc) ↔
        x ∈ setAt d acc ∨ ∃ cid ∈ l, ∃ e ∈ (alookup cid m).getD [], e.1 = d ∧ x ∈ e.2 := by
    intro l
    induction l with
    | nil => intro acc; simp
    | cons cid rest ih =>
      intro acc
      rw [List.foldl_cons, ih]
      cases hcid : alookup cid m with
      | some docmap =>
        rw [setAt_docFold]
        constructor
        · rintro ((hx | ⟨e, he, hed, hex⟩) | ⟨c, hc, he⟩)
          · exact Or.inl hx
          · exact Or.inr ⟨cid, List.mem_cons_self _ _, e, by rw [hcid]; exact he, hed, hex⟩
          · exact Or.inr ⟨c, List.mem_cons_of_mem _ hc, he⟩
        · rintro (hx | ⟨c, hc, e, he, hed, hex⟩)
          · exact Or.inl (Or.inl hx)
          · rcases List.mem_cons.mp hc with rfl | hc'
            · rw [hcid] at he
              exact Or.inl (Or.inr ⟨e, he, hed, hex⟩)
            · exact Or.inr ⟨c, hc', e, he, hed, hex⟩
      | none =>
        constructor
        · rintro (hx | ⟨c, hc, he⟩)
          · exact Or.inl hx
          · exact Or.inr ⟨c, List.mem_cons_of_mem _ hc, he⟩
        · rintro (hx | ⟨c, hc, e, he, hed, hex⟩)
          · exact Or.inl hx
          · rcases List.mem_cons.mp hc with rfl | hc'
            · rw [hcid] at he
              simp at he
            · exact Or.inr ⟨c, hc', e, he, hed, hex⟩
  rw [buildDocToSens, key cids []]
  simp [setAt, alookup]

/-- The keys of the full doc_to_sens accumulation. -/
theorem keys_buildDocToSens (m : ClueMap) (cids : List Nat) (d : Nat) :
    d ∈ (buildDocToSens m cids).map Prod.fst ↔
      ∃ cid ∈ cids, ∃ e ∈ (alookup cid m).getD [], e.1 = d := by
  have key : ∀ (l : List Nat) (acc : List (Nat × List Nat)),
      d ∈ ((l.foldl
        (fun acc cid =>
          match alookup cid m with
          | some docmap => docmap.foldl (fun acc t => addDocSens acc t.1 t.2) acc
          | none => acc) acc).map Prod.fst) ↔
        d ∈ acc.map Prod.fst ∨ ∃ cid ∈ l, ∃ e ∈ (alookup cid m).getD [], e.1 = d := by
    intro l
    induction l with
    | nil => intro acc; simp
    | cons cid rest ih =>
      intro acc
      rw [List.foldl_cons, ih]
      cases hcid : alookup cid m with
      | some docmap =>
        rw [keys_docFold]
        constructor
        · rintro ((hd | ⟨e, he, hed⟩) | ⟨c, hc, he⟩)
          · exact Or.inl hd
          · exact Or.inr ⟨cid, List.mem_cons_self _ _, e, by rw [hcid]; exact he, hed⟩
          · exact Or.inr ⟨c, List.mem_cons_of_mem _ hc, he⟩
        · rintro (hd | ⟨c, hc, e, he, hed⟩)
          · exact Or.inl (Or.inl hd)
          · rcases List.mem_cons.mp hc with rfl | hc'
            · rw [hcid] at he
              exact Or.inl (Or.inr ⟨e, he, hed⟩)
            · exact Or.inr ⟨c, hc', e, he, hed⟩
      | none =>
        constructor
        · rintro (hd | ⟨c, hc, he⟩)
          · exact Or.inl hd
          · exact Or.inr ⟨c, List.mem_cons_of_mem _ hc, he⟩
        · rintro (hd | ⟨c, hc, e, he, hed⟩)
          · exact Or.inl hd
          · rcases List.mem_cons.mp hc with rfl | hc'
            · rw [hcid] at he
              simp at he
            · exact Or.inr ⟨c, hc', e, he, hed⟩
  rw [buildDocToSens, key cids []]
  simp

/-- The doc_to_sens accumulation has duplicate-free keys and values. -/
theorem nodup_buildDocToSens (m : ClueMap) (cids : List Nat) :
    ((buildDocToSens m cids).map Prod.fst).Nodup ∧
    (∀ d', (setAt d' (buildDocToSens m cids)).Nodup) := by
  have key : ∀ (l : List Nat) (acc : List (Nat × List Nat)),
      (acc.map Prod.fst).Nodup → (∀ d', (setAt d' acc).Nodup) →
      (((l.foldl
        (fun acc cid =>
          match alookup cid m with
          | some docmap => docmap.foldl (fun acc t => addDocSens acc t.1 t.2) acc
          | none => acc) acc).map Prod.fst).Nodup) ∧
      (∀ d', (setAt d' (l.foldl
        (fun acc cid =>
          match alookup cid m with
          | some docmap => docmap.foldl (fun acc t => addDocSens acc t.1 t.2) acc
          | none => acc) acc)).Nodup) := by
    intro l
    induction l with
    | nil => intro acc h1 h2; exact ⟨h1, h2⟩
    | cons cid rest ih =>
      intro acc h1 h2
      rw [List.foldl_cons]
      cases hcid : alookup cid m with
      | some docmap =>
        obtain ⟨h1', h2'⟩ := nodup_docFold docmap acc h1 h2
        exact ih _ h1' h2'
      | none => exact ih acc h1 h2
  refine key cids [] (by simp) ?_
  intro d'
  simp [setAt, alookup]

/-- Membership in a deduplicating sorted insertion. -/
theorem mem_sdInsert (x y : Nat) : ∀ (l : List Nat), y ∈ sdInsert x l ↔ y = x ∨ y ∈ l := by
  intro l
  induction l with
  | nil => simp [sdInsert]
  | cons z zs ih =>
    rw [sdInsert]
    by_cases h1 : x < z
    · rw [if_pos h1]
      simp [List.mem_cons]
    · rw [if_neg h1]
      by_cases h2 : x = z
      · rw [if_pos h2]
        subst h2
        simp [List.mem_cons]
      · rw [if_neg h2]
        simp [List.mem_cons, ih]
        tauto

/-- Deduplicating sorted insertion preserves strict sortedness. -/
theorem sorted_sdInsert (x : Nat) :
    ∀ (l : List Nat), l.Sorted (· < ·) → (sdInsert x l).Sorted (· < ·) := by
  intro l
  induction l with
  | nil => intro _; simp [sdInsert]
  | cons z zs ih =>
    intro hs
    rw [List.sorted_cons] at hs
    obtain ⟨hz, hzs⟩ := hs
    rw [sdInsert]
    by_cases h1 : x < z
    · rw [if_pos h1]
      rw [List.sorted_cons]
      refine ⟨?_, by rw [List.sorted_cons]; exact ⟨hz, hzs⟩⟩
      intro b hb
      rcases List.mem_cons.mp hb with rfl | hb'
      · exact h1
      · exact h1.trans (hz b hb')
    · rw [if_neg h1]
      by_cases h2 : x = z
      · rw [if_pos h2]
        rw [List.sorted_cons]
        exact ⟨hz, hzs⟩
      · rw [if_neg h2]
        rw [List.sorted_cons]
        refine ⟨?_, ih hzs⟩
        intro b hb
        rcases (mem_sdInsert x b zs).mp hb with rfl | hb'
        · omega
        · exact hz b hb'

/-- sorted(set(l)) has the same members as l. -/
theorem mem_sortedDedup (l : List Nat) (x : Nat) : x ∈ sortedDedup l ↔ x ∈ l := by
  induction l with
  | nil => simp [sortedDedup]
  | cons y ys ih =>
    show x ∈ sdInsert y (sortedDedup ys) ↔ _
    rw [mem_sdInsert, ih]
    simp [List.mem_cons]

/-- sorted(set(l)) is strictly ascending. -/
theorem sorted_sortedDedup (l : List Nat) : (sortedDedup l).Sorted (· < ·) := by
  induction l with
  | nil => simp [sortedDedup]
  | cons y ys ih => exact sorted_sdInsert y (sortedDedup ys) ih

/-- Sorting an already ascending list changes nothing. -/
theorem sortNats_of_sorted (l : List Nat) (h : l.Sorted (· ≤ ·)) : sortNats l = l :=
  List.eq_of_perm_of_sorted (sortNats_perm l) (sortNats_sorted l) h

/-- Sorting a duplicate-free list equals deduplicating-sorting any list
with the same members. -/
theorem sortNats_eq_sortedDedup (l1 l2 : List Nat) (h1 : l1.Nodup)
    (hmem : ∀ x, x ∈ l1 ↔ x ∈ l2) : sortNats l1 = sortedDedup l2 := by
  have hs1 : (sortNats l1).Nodup := ((sortNats_perm l1).nodup_iff).mpr h1
  have hs2 : (sortedDedup l2).Nodup := (sorted_sortedDedup l2).nodup
  have hperm : (sortNats l1).Perm (sortedDedup l2) := by
    rw [List.perm_ext_iff_of_nodup hs1 hs2]
    intro x
    rw [(sortNats_perm l1).mem_iff, mem_sortedDedup]
    exact hmem x
  exact List.eq_of_perm_of_sorted hperm (sortNats_sorted l1)
    ((sorted_sortedDedup l2).imp (fun hab => le_of_lt hab))

/-- A well-formed '-' token expands without raising. -/
theorem expand_range_isSome_of_good (t : PyStr) (hc : t.contains '-' = true)
    (hg : goodRangeTok t = true) : (expand_range t).isSome = true := by
  unfold goodRangeTok at hg
  unfold expand_range
  rw [if_pos hc]
  cases hsplit : splitOnChar '-' t with
  | nil => rw [hsplit] at hg; simp at hg
  | cons a rest =>
    cases rest with
    | nil => rw [hsplit] at hg; simp at hg
    | cons b rest2 =>
      cases rest2 with
      | nil =>
        rw [hsplit] at hg
        simp only [Bool.and_eq_true] at hg
        obtain ⟨ha, hb⟩ := hg
        simp [parseNat, ha, hb]
      | cons c rest3 => rw [hsplit] at hg; simp at hg

/-- Under well-formed '-' tokens, expand_range_in_list succeeds and
returns exactly the spec-side clue ids. -/
theorem expand_range_in_list_good : ∀ (tokens : List PyStr),
    (∀ t ∈ tokens, t.contains '-' = true → goodRangeTok t = true) →
    expand_range_in_list tokens = some (specClueIds tokens) := by
  intro tokens
  induction tokens with
  | nil => intro _; simp [expand_range_in_list, specClueIds]
  | cons t rest ih =>
    intro h
    have hrest := ih (fun t' ht' => h t' (List.mem_cons_of_mem _ ht'))
    rw [expand_range_in_list]
    by_cases hc : t.contains '-' = true
    · have hgood := h t (List.mem_cons_self _ _) hc
      obtain ⟨xs, hxs⟩ :=
        Option.isSome_iff_exists.mp (expand_range_isSome_of_good t hc hgood)
      rw [if_pos hc, hxs, hrest]
      have hmem : '-' ∈ t := by simpa using hc
      simp [specClueIds, hxs, hmem]
    · rw [if_neg hc, hrest]
      have hmem : ¬('-' ∈ t) := by simpa using hc
      cases hp : parseNat t with
      | some n => simp [specClueIds, hp, hmem]
      | none => simp [specClueIds, hp, hmem]

/-- The sorted document keys of doc_to_sens are exactly the spec-side hit
documents. -/
theorem sortNats_keys_eq_hitDocs (m : ClueMap) (cids : List Nat) :
    sortNats ((buildDocToSens m cids).map Prod.fst) = hitDocs m cids := by
  rw [hitDocs]
  apply sortNats_eq_sortedDedup _ _ (nodup_buildDocToSens m cids).1
  intro x
  rw [keys_buildDocToSens]
  simp only [List.mem_flatMap, List.mem_map]

/-- The sorted sentence set for one document is exactly the spec-side
sentence list. -/
theorem sortNats_setAt_eq_specSens (m : ClueMap) (cids : List Nat) (d : Nat) :
    sortNats (setAt d (buildDocToSens m cids)) = specSens m cids d := by
  rw [specSens]
  apply sortNats_eq_sortedDedup _ _ ((nodup_buildDocToSens m cids).2 d)
  intro x
  rw [setAt_buildDocToSens]
  simp only [List.mem_flatMap, List.mem_filter, decide_eq_true_eq]
  constructor
  · rintro ⟨cid, hcid, e, he, hed, hex⟩
    exact ⟨cid, hcid, e, ⟨he, hed⟩, hex⟩
  · rintro ⟨cid, hcid, e, ⟨he, hed⟩, hex⟩
    exact ⟨cid, hcid, e, he, hed, hex⟩

/-- Closing a run always emits at least one token. -/
theorem closeRun_ne_nil (start prev : Nat) : closeRun start prev ≠ [] := by
  unfold closeRun
  split_ifs <;> simp

/-- The run loop always emits at least one token. -/
theorem esrLoop_ne_nil : ∀ (l : List Nat) (start prev : Nat), esrLoop start prev l ≠ [] := by
  intro l
  induction l with
  | nil => intro start prev; exact closeRun_ne_nil start prev
  | cons num rest ih =>
    intro start prev
    rw [esrLoop]
    by_cases h : num = prev + 1
    · rw [if_pos h]; exact ih start num
    · rw [if_neg h]
      intro hnil
      exact closeRun_ne_nil start prev (List.append_eq_nil.mp hnil).1

/-- expand_sen_ranges emits no token exactly on the empty input. -/
theorem expand_sen_ranges_eq_nil_iff (l : List Nat) :
    expand_sen_ranges l = [] ↔ l = [] := by
  unfold expand_sen_ranges
  cases hs : sortNats l with
  | nil =>
    have hperm := sortNats_perm l
    rw [hs] at hperm
    simp [hperm.symm.eq_nil]
  | cons n rest =>
    have hperm := sortNats_perm l
    rw [hs] at hperm
    constructor
    · intro hnil
      exact absurd hnil (esrLoop_ne_nil rest n n)
    · intro hnil
      rw [hnil] at hperm
      exact absurd hperm.eq_nil (by simp)

/-- On a strictly ascending list, expand_sen_ranges renders exactly the
maximal consecutive runs. -/
theorem expand_sen_ranges_of_sorted_lt (l : List Nat) (h : l.Sorted (· < ·)) :
    expand_sen_ranges l = fmtRuns (runsOf l) := by
  unfold expand_sen_ranges
  rw [sortNats_of_sorted l (h.imp (fun hab => le_of_lt hab))]
  cases l with
  | nil => simp [runsOf, fmtRuns]
  | cons n rest =>
    show esrLoop n n rest = fmtRuns (runsOf (n :: rest))
    rw [runsOf]
    exact esrLoop_fmt rest n n (List.chain_iff_pairwise.mpr h) (le_refl n)

/-- One document's citation text in the implementation equals the
spec-side citation. -/
theorem citation_eq (m : ClueMap) (cids : List Nat) (doc_id : Nat) :
    (if (expand_sen_ranges (sortNats (setAt doc_id (buildDocToSens m cids)))).isEmpty
     then ([] : PyStr)
     else "Doc ".data ++ natToChars doc_id ++ ", Sen ".data ++
       List.intercalate ", ".data
         (expand_sen_ranges (sortNats (setAt doc_id (buildDocToSens m cids))))) =
    specCitation m cids doc_id := by
  rw [sortNats_setAt_eq_specSens]
  have hlt : (specSens m cids doc_id).Sorted (· < ·) := by
    rw [specSens]; exact sorted_sortedDedup _
  rw [expand_sen_ranges_of_sorted_lt _ hlt, specCitation]
  cases hsens : specSens m cids doc_id with
  | nil => simp [runsOf, fmtRuns]
  | cons s ss =>
    obtain ⟨b, more, hmr⟩ := mergeRun_head s s (runsOf ss)
    rw [runsOf, hmr, fmtRuns_cons, fmtRuns_single]
    have hne : closeRun s b ++ fmtRuns more ≠ [] :=
      fun hh => closeRun_ne_nil s b (List.append_eq_nil.mp hh).1
    rw [if_neg (by simp [List.isEmpty_iff, hne]), if_neg (by simp)]

/-- doc_to_sens is empty exactly when no document is hit. -/
theorem buildDocToSens_isEmpty_iff (m : ClueMap) (cids : List Nat) :
    (buildDocToSens m cids).isEmpty = true ↔ hitDocs m cids = [] := by
  rw [List.isEmpty_iff]
  constructor
  · intro h
    rw [← sortNats_keys_eq_hitDocs, h]
    rfl
  · intro h
    have hkeys := sortNats_keys_eq_hitDocs m cids
    rw [h] at hkeys
    have hperm := sortNats_perm ((buildDocToSens m cids).map Prod.fst)
    rw [hkeys] at hperm
    exact List.map_eq_nil_iff.mp hperm.symm.eq_nil

/-- The citation equality restated on the literal character lists that
simplification produces. -/
theorem citation_eq2 (m : ClueMap) (cids : List Nat) (doc_id : Nat) :
    (if (expand_sen_ranges (sortNats (setAt doc_id (buildDocToSens m cids)))).isEmpty = true
     then ([] : PyStr)
     else ['D', 'o', 'c', ' '] ++ natToChars doc_id ++ [',', ' ', 'S', 'e', 'n', ' '] ++
       List.intercalate [',', ' ']
         (expand_sen_ranges (sortNats (setAt doc_id (buildDocToSens m cids))))) =
    specCitation m cids doc_id := by
  have h := citation_eq m cids doc_id
  exact h

/-- Under well-formed '-' tokens the replacement callback never raises
and computes the spec-side replacement. -/
theorem clueReplacement_spec (m : ClueMap) (g full : PyStr)
    (hg : ∀ t ∈ splitTokens g, t.contains '-' = true → goodRangeTok t = true) :
    clueReplacement m g full = some (specReplacement m g full) := by
  have hcids := expand_range_in_list_good (splitTokens g) hg
  simp only [clueReplacement, specReplacement, hcids]
  by_cases hempty : (buildDocToSens m (specClueIds (splitTokens g))).isEmpty = true
  · rw [if_pos hempty,
      if_pos (by simp [List.isEmpty_iff,
        (buildDocToSens_isEmpty_iff m (specClueIds (splitTokens g))).mp hempty])]
  · have hdocs : hitDocs m (specClueIds (splitTokens g)) ≠ [] :=
      fun hh => hempty ((buildDocToSens_isEmpty_iff m _).mpr hh)
    rw [if_neg hempty, if_neg (by simp [List.isEmpty_iff, hdocs])]
    rw [sortNats_keys_eq_hitDocs]
    simp only [citation_eq2]
    cases hd : hitDocs m (specClueIds (splitTokens g)) with
    | nil => exact absurd hd hdocs
    | cons d1 ds =>
      cases ds with
      | nil => simp
      | cons d2 ds' => simp [List.flatMap_map]

/-- At any fuel, when every scanned citation group carries only
well-formed '-' tokens, the substitution never raises and computes the
spec-side substitution. -/
theorem clueSubAux_spec (m : ClueMap) : ∀ (fuel : Nat) (s : List Char),
    (∀ g ∈ clueGroupsAux fuel s, ∀ t ∈ splitTokens g,
      t.contains '-' = true → goodRangeTok t = true) →
    clueSubAux (clueReplacement m) fuel s = some (specClueSubAux m fuel s) := by
  intro fuel
  induction fuel with
  | zero => intro s _; rfl
  | succ fuel ih =>
    intro s hg
    cases s with
    | nil => rfl
    | cons c rest =>
      rw [clueSubAux, specClueSubAux]
      rw [clueGroupsAux] at hg
      by_cases hc : c = '['
      · rw [if_pos hc, if_pos hc]
        rw [if_pos hc] at hg
        cases hmd : clueMatchAt rest with
        | some md =>
          rw [hmd] at hg
          have hhead : ∀ t ∈ splitTokens md.1,
              t.contains '-' = true → goodRangeTok t = true :=
            hg md.1 (List.mem_cons_self _ _)
          have htail := ih md.2.2 (fun g hgmem => hg g (List.mem_cons_of_mem _ hgmem))
          show (match clueReplacement m md.1 md.2.1,
                  clueSubAux (clueReplacement m) fuel md.2.2 with
                | some r, some s => some (r ++ s)
                | _, _ => none) =
              some (specReplacement m md.1 md.2.1 ++ specClueSubAux m fuel md.2.2)
          rw [clueReplacement_spec m md.1 md.2.1 hhead, htail]
        | none =>
          rw [hmd] at hg
          show (match clueSubAux (clueReplacement m) fuel rest with
                | some s => some (c :: s)
                | none => none) = some (c :: specClueSubAux m fuel rest)
          rw [ih rest hg]
      · rw [if_neg hc, if_neg hc]
        rw [if_neg hc] at hg
        show (match clueSubAux (clueReplacement m) fuel rest with
              | some s => some (c :: s)
              | none => none) = some (c :: specClueSubAux m fuel rest)
        rw [ih rest hg]

/-- C2 counterexample: the implementation does not collapse a pair of
consecutive sentence ids into an 'a-b' range (runs shorter than three are
listed individually), and a citation whose token splits into more than
two '-'-separated parts makes replace_clue_with_doc_and_sen raise
ValueError instead of rewriting or keeping the citation. -/
theorem replace_clue_with_doc_and_sen_counterexample :
    replace_clue_with_doc_and_sen [(1, [(1, [4, 5])])] "[Clue 1]".data
        = some "[Doc 1, Sen 4, 5]".data ∧
    "[Doc 1, Sen 4, 5]".data ≠ "[Doc 1, Sen 4-5]".data ∧
    replace_clue_with_doc_and_sen [] "[Clue 1--2]".data = none := by
  refine ⟨by decide, by decide, by decide⟩

/-- C2 (amended): whenever every '-' token of every scanned clue citation
splits into exactly two digit parts, replace_clue_with_doc_and_sen
rewrites each citation whose expanded clue ids select at least one
document into one '[Doc d, Sen ...]' bracket group per selected document
in ascending document order — maximal runs of at least three consecutive
sentence ids collapsed into 'a-b' and shorter runs listed individually —
and leaves citations selecting no document unchanged. -/
theorem replace_clue_with_doc_and_sen_amended (m : ClueMap) (s : PyStr)
    (hg : ∀ g ∈ clueGroups s, ∀ t ∈ splitTokens g,
      t.contains '-' = true → goodRangeTok t = true) :
    replace_clue_with_doc_and_sen m s = some (specClueSub m s) :=
  clueSubAux_spec m s.length s hg

/-- C2 witness: a two-citation answer over a two-clue mapping satisfies
the token hypothesis, and the rewrite computes the spec-side result,
which renders as ascending per-document groups with the long run
collapsed and the unmapped citation kept. -/
theorem replace_clue_with_doc_and_sen_amended_witness :
    (∀ g ∈ clueGroups "See [Clue 1-2] and [Clue 7].".data, ∀ t ∈ splitTokens g,
      t.contains '-' = true → goodRangeTok t = true) ∧
    replace_clue_with_doc_and_sen [(1, [(2, [4, 5, 6]), (1, [9])]), (2, [(1, [1])])]
        "See [Clue 1-2] and [Clue 7].".data
      = some (specClueSub [(1, [(2, [4, 5, 6]), (1, [9])]), (2, [(1, [1])])]
        "See [Clue 1-2] and [Clue 7].".data) ∧
    specClueSub [(1, [(2, [4, 5, 6]), (1, [9])]), (2, [(1, [1])])]
        "See [Clue 1-2] and [Clue 7].".data
      = "See [Doc 1, Sen 1, 9][Doc 2, Sen 4-6] and [Clue 7].".data :=
  ⟨by decide,
   replace_clue_with_doc_and_sen_amended
     [(1, [(2, [4, 5, 6]), (1, [9])]), (2, [(1, [1])])]
     "See [Clue 1-2] and [Clue 7].".data (by decide),
   by decide⟩
